import Mathlib

/-!
Verification of the coralite translation plugin against its specification.

This file gives a shallow embedding of the plugin's pure core in Lean 4:

* the HTML node model consumed from the external parser (a tagged tree of
  root / tag / text / comment / script / style nodes with insertion-ordered
  attribute lists, mirroring the duck-typed objects of htmlparser2);
* `src/lib/block-utils.js`: block classification (`findTranslatableBlocks`),
  serialization (`serializeNode`), the payload codec
  (`prepareTranslationPayload` / `parseTranslatedPayload`), reconstruction
  (`reconstructBlock`) and attribute restoration (`restoreAttributes`);
* `src/lib/service.js`: the text-mode safety validator
  (`validateTranslationSafety`) and the chunked orchestration
  (`repairLanguageFields`);
* the fragment-mode chunk validator `validateChunk` and its helpers
  (`extractText`, `countTags`, `extractAttributes`);
* the batch orchestration `processBlockBatch` with chunk-level retries;
* `src/lib/link-utils.js`: link localization (`prefixPath`,
  `processRelativeLinks`).

Modelling conventions:

* JavaScript strings are Lean `String`s; all string manipulation is done on
  the underlying `List Char` with bespoke, kernel-reducible helpers
  (`jsTrimList` models `String.prototype.trim` with the JS whitespace set,
  `jsLength` models the UTF-16 `length`, etc.).
* The IEEE-double length ratios of the validators are modelled exactly as
  fraction pairs (`Ratio`) compared by cross multiplication.  For the
  integer lengths and the decimal bounds that appear in the source the
  double comparisons agree with the exact rational comparisons.  Reason
  strings that embed a ratio formatted by `toFixed(2)` are modelled
  structurally as a `Reason` constructor carrying the exact ratio.
* The external HTML parser (`parseHTML` from coralite) is out of scope per
  the spec; functions that parse internally are parameterised by an
  abstract `parse : String → Except String Node`.
* The WHATWG `URL` resolution used by `prefixPath` is modelled concretely
  (`resolveRefParts`): input preprocessing (tab/newline removal, C0/space
  trimming), fragment/query splitting, backslash-as-slash in the path,
  path merge and dot-segment removal (`%2e` spellings included), and
  UTF-8 percent-encoding of path, query and fragment with their WHATWG
  sets.  A case-variant `http:` scheme resolves through the WHATWG
  same-special-scheme quirk; any other scheme never has the dummy origin.
  References naming an explicit authority (two leading slashes, `\`
  included) are modelled as never being the dummy origin: hosts that
  renormalize to `dummy.com` (such as `HTTP://DUMMY.com/x`) are outside
  the model, and no theorem quantifies over such hrefs or pages.
* Effects (HTTP calls) are modelled by attempt oracles: the orchestration
  functions take a function from attempt number to that attempt's outcome.
-/

set_option maxHeartbeats 1000000

namespace Coralite

/-! ## Character and string helpers (JS semantics) -/

/-- The JavaScript whitespace set recognised by `String.prototype.trim`
(space, tab, LF, CR, VT, FF, NBSP, BOM, LS, PS; the other Unicode `Zs`
characters are omitted as they never occur in the claims). -/
def jsWhitespaceChar (c : Char) : Bool :=
  c = ' ' ∨ c = '\t' ∨ c = '\n' ∨ c = '\r' ∨ c.toNat = 11 ∨ c.toNat = 12 ∨
    c.toNat = 0xa0 ∨ c.toNat = 0xfeff ∨ c.toNat = 0x2028 ∨ c.toNat = 0x2029

/-- `trim()` on a character list: drop JS whitespace at both ends. -/
def jsTrimList (l : List Char) : List Char :=
  ((l.dropWhile jsWhitespaceChar).reverse.dropWhile jsWhitespaceChar).reverse

/-- `String.prototype.trim`. -/
def jsTrim (s : String) : String :=
  String.mk (jsTrimList s.data)

/-- UTF-16 width of one code point (JS `length` counts code units). -/
def utf16Width (c : Char) : Nat :=
  if c.toNat ≥ 0x10000 then 2 else 1

/-- JS `String.prototype.length` of a character list. -/
def jsLength (l : List Char) : Nat :=
  (l.map utf16Width).sum

/-- One code point of the CJK regex character class
`[぀-ヿ㐀-䶿一-鿿豈-﫿ｦ-ﾟ]`. -/
def isCJKChar (c : Char) : Bool :=
  (0x3040 ≤ c.toNat ∧ c.toNat ≤ 0x30ff) ∨
  (0x3400 ≤ c.toNat ∧ c.toNat ≤ 0x4dbf) ∨
  (0x4e00 ≤ c.toNat ∧ c.toNat ≤ 0x9fff) ∨
  (0xf900 ≤ c.toNat ∧ c.toNat ≤ 0xfaff) ∨
  (0xff66 ≤ c.toNat ∧ c.toNat ≤ 0xff9f)

/-- The CJK regex test on a character list. -/
def hasCJK (l : List Char) : Bool :=
  l.any isCJKChar

/-- Does `p` occur at the head of `s`? -/
def listStartsWith : List Char → List Char → Bool
  | [], _ => true
  | _ :: _, [] => false
  | p :: ps, c :: cs => p = c && listStartsWith ps cs

/-! ## Exact rational length ratios

The source computes `ratio = targetLen / sourceLen` as an IEEE double and
compares it against decimal bounds.  We model the ratio exactly as a
numerator/denominator pair and compare by cross multiplication. -/

structure Ratio where
  num : Nat
  den : Nat
deriving DecidableEq, Repr

/-- `a < b` on exact ratios (denominators are positive in every use). -/
def Ratio.lt (a b : Ratio) : Bool :=
  a.num * b.den < b.num * a.den

/-- `a ≤ b` on exact ratios. -/
def Ratio.le (a b : Ratio) : Bool :=
  a.num * b.den ≤ b.num * a.den

/-! ## The document node model

The external parser returns duck-typed objects with a `type` string, a
`name`, a `data` payload (for text/comment), an attribute map with
insertion order, and a `children` array.  We model all of them with one
constructor; fields that a given node type does not carry are empty. -/

inductive NKind where
  | root | tag | text | comment | script | style
deriving DecidableEq, Repr

inductive Node where
  | mk (kind : NKind) (name : String) (data : String)
      (attribs : List (String × String)) (children : List Node)

def Node.kind : Node → NKind
  | .mk k _ _ _ _ => k

def Node.name : Node → String
  | .mk _ n _ _ _ => n

def Node.data : Node → String
  | .mk _ _ d _ _ => d

def Node.attribs : Node → List (String × String)
  | .mk _ _ _ a _ => a

def Node.children : Node → List Node
  | .mk _ _ _ _ cs => cs

/-- Structural induction through the nested `List Node` children. -/
theorem Node.myInduction (P : Node → Prop)
    (h : ∀ k n d a cs, (∀ c ∈ cs, P c) → P (.mk k n d a cs)) : ∀ x, P x := by
  intro x
  induction x using Node.rec (motive_2 := fun l => ∀ c ∈ l, P c) with
  | mk k n d a cs ih => exact h k n d a cs ih
  | nil => rename_i c hc; cases hc
  | cons hd tl ihh iht =>
    rename_i c hc
    cases hc with
    | head => exact ihh
    | tail _ hmem => exact iht c hmem

/-! ## block-utils.js: tag sets -/

/-- `TRANSLATABLE_ATTRS` of block-utils.js. -/
def TRANSLATABLE_ATTRS : List String :=
  ["alt", "title", "placeholder", "aria-label"]

/-- `SEMANTIC_BLOCKS` lookup table. -/
def SEMANTIC_BLOCKS (s : String) : Bool :=
  s == "p" || s == "h1" || s == "h2" || s == "h3" || s == "h4" || s == "h5" ||
  s == "h6" || s == "li" || s == "blockquote" || s == "td" || s == "th" ||
  s == "figcaption" || s == "caption" || s == "dt" || s == "dd" ||
  s == "summary" || s == "option" || s == "legend" || s == "code" || s == "pre"

/-- `CONTAINER_BLOCKS` lookup table. -/
def CONTAINER_BLOCKS (s : String) : Bool :=
  s == "div" || s == "span" || s == "section" || s == "article" ||
  s == "aside" || s == "header" || s == "footer" || s == "main" ||
  s == "form" || s == "nav" || s == "figure" || s == "details"

/-- `SKIP_TAGS` lookup table. -/
def SKIP_TAGS (s : String) : Bool :=
  s == "script" || s == "style" || s == "svg" || s == "noscript" ||
  s == "iframe" || s == "template"

/-- `voidTags` lookup table. -/
def voidTags (s : String) : Bool :=
  s == "area" || s == "base" || s == "br" || s == "col" || s == "embed" ||
  s == "hr" || s == "img" || s == "input" || s == "link" || s == "meta" ||
  s == "param" || s == "source" || s == "track" || s == "wbr"

/-! ## block-utils.js: classification -/

/-- `hasTranslatableAttributes`: some allow-listed attribute has a value
whose trim is non-empty (`attribs[attr] && attribs[attr].trim().length > 0`). -/
def hasTranslatableAttributes (n : Node) : Bool :=
  TRANSLATABLE_ATTRS.any fun a =>
    match List.lookup a n.attribs with
    | some v => !(jsTrimList v.data).isEmpty
    | none => false

mutual

/-- `hasTextContent`: the node or some descendant is a text node with
non-whitespace data. -/
def hasTextContent : Node → Bool
  | .mk k _ d _ cs =>
    if k = .text then !(jsTrimList d.data).isEmpty
    else hasTextContentList cs

def hasTextContentList : List Node → Bool
  | [] => false
  | c :: cs => hasTextContent c || hasTextContentList cs

end

/-- `hasDirectTextContent`: some direct child is a text node with
non-whitespace data. -/
def hasDirectTextContent (n : Node) : Bool :=
  n.children.any fun c => c.kind == .text && !(jsTrimList c.data.data).isEmpty

mutual

/-- No node of a subtree carries a translatable attribute (used to state
when the classifier finds nothing). -/
def attrFreeSubtree : Node → Bool
  | .mk k nm d ats cs =>
    !hasTranslatableAttributes (.mk k nm d ats cs) && attrFreeList cs

def attrFreeList : List Node → Bool
  | [] => true
  | c :: cs => attrFreeSubtree c && attrFreeList cs

end

mutual

/-- Parser-produced trees are well formed: text and comment nodes carry no
children. -/
def wellFormed : Node → Bool
  | .mk k _ _ _ cs =>
    (if k = .text ∨ k = .comment then cs.isEmpty else true) && wellFormedList cs

def wellFormedList : List Node → Bool
  | [] => true
  | c :: cs => wellFormed c && wellFormedList cs

end

/-- The `isBlock` decision inside `findTranslatableBlocks` (source lines
89–103): translatable attributes win, then semantic tags need any text,
then container tags need direct text. -/
def isBlockNode (n : Node) : Bool :=
  if n.kind = .tag then
    if hasTranslatableAttributes n then true
    else if SEMANTIC_BLOCKS n.name then hasTextContent n
    else if CONTAINER_BLOCKS n.name then hasDirectTextContent n
    else false
  else false

mutual

/-- `findTranslatableBlocks`, returning the collected block list: skip-set
names are pruned with their whole subtree, a selected block is emitted
without descending, otherwise the children are traversed in order. -/
def findTranslatableBlocks : Node → List Node
  | .mk k nm d ats cs =>
    if SKIP_TAGS nm then []
    else if isBlockNode (.mk k nm d ats cs) then [Node.mk k nm d ats cs]
    else findBlocksList cs

def findBlocksList : List Node → List Node
  | [] => []
  | c :: cs => findTranslatableBlocks c ++ findBlocksList cs

end

/-! ## block-utils.js: serialization -/

/-- Attribute serialization ` key="value"` in insertion order. -/
def serializeAttribs : List (String × String) → String
  | [] => ""
  | (k, v) :: rest => " " ++ k ++ "=\"" ++ v ++ "\"" ++ serializeAttribs rest

mutual

/-- `serializeNode`: text data verbatim, comments wrapped, tags with
attributes and children (void tags without closing), fragments by
concatenating children. -/
def serializeNode : Node → String
  | .mk k nm d ats cs =>
    if k = .text then d
    else if k = .comment then "<!--" ++ d ++ "-->"
    else if k = .tag ∨ k = .script ∨ k = .style then
      if voidTags nm then "<" ++ nm ++ serializeAttribs ats ++ ">"
      else
        "<" ++ nm ++ serializeAttribs ats ++ ">" ++ serializeList cs ++
          "</" ++ nm ++ ">"
    else serializeList cs

def serializeList : List Node → String
  | [] => ""
  | c :: cs => serializeNode c ++ serializeList cs

end

/-! ## Decimal numerals

`prepareTranslationPayload` interpolates the chunk index into the payload
(JS number-to-string, base 10) and `parseTranslatedPayload` reads it back
with `parseInt(.., 10)`.  We use a fuel-based printer so every definition
reduces in the kernel. -/

def digitChar : Nat → Char
  | 0 => '0' | 1 => '1' | 2 => '2' | 3 => '3' | 4 => '4'
  | 5 => '5' | 6 => '6' | 7 => '7' | 8 => '8' | _ => '9'

def natDecAux : Nat → Nat → List Char
  | 0, _ => []
  | fuel + 1, n =>
    if n < 10 then [digitChar n]
    else natDecAux fuel (n / 10) ++ [digitChar (n % 10)]

/-- Base-10 numeral of a natural number. -/
def natDec (n : Nat) : List Char :=
  natDecAux (n + 1) n

def isDigitChar (c : Char) : Bool :=
  48 ≤ c.toNat && c.toNat ≤ 57

def digitVal (c : Char) : Nat :=
  c.toNat - 48

/-- Split the longest leading digit run from a character list. -/
def takeDigits : List Char → List Char × List Char
  | [] => ([], [])
  | c :: cs =>
    if isDigitChar c then
      let r := takeDigits cs
      (c :: r.1, r.2)
    else ([], c :: cs)

/-- Value of a digit run (the semantics of `parseInt(run, 10)`). -/
def decValue (ds : List Char) : Nat :=
  ds.foldl (fun a c => 10 * a + digitVal c) 0

/-! ## block-utils.js: payload codec -/

/-- One mapping record of `prepareTranslationPayload`. -/
structure MapEntry where
  index : Nat
  block : Node
  originalHtml : String

/-- The payload wrapper of one chunk, at character level:
`<chunk id="i">\n html \n</chunk>\n`. -/
def chunkWrapL (i : Nat) (html : List Char) : List Char :=
  "<chunk id=\"".data ++ natDec i ++ '"' :: '>' :: '\n' ::
    (html ++ '\n' :: ("</chunk>".data ++ ['\n']))

/-- The serialized fragment a block contributes: outer HTML when it has
translatable attributes, the concatenation of its children otherwise. -/
def blockFragment (b : Node) : String :=
  if hasTranslatableAttributes b then serializeNode b else serializeList b.children

/-- The indexed loop body of `prepareTranslationPayload`: `i` is the
position in the input array (`forEach`'s index); blocks with
empty/whitespace-only fragments are skipped without consuming an index. -/
def prepareAux : Nat → List Node → String × List MapEntry
  | _, [] => ("", [])
  | i, b :: bs =>
    let html := blockFragment b
    let rest := prepareAux (i + 1) bs
    if jsTrimList html.data = [] then rest
    else (String.mk (chunkWrapL i html.data) ++ rest.1, ⟨i, b, html⟩ :: rest.2)

/-- `prepareTranslationPayload`. -/
def prepareTranslationPayload (blocks : List Node) : String × List MapEntry :=
  prepareAux 0 blocks

/-! ## block-utils.js: response decoding

`parseTranslatedPayload` runs the global regex
`<chunk id="(\d+)">([\s\S]*?)<\/chunk>` over the response and collects
`id → body.trim()` into a `Map`.  The scanner below mirrors the regex
semantics: leftmost match, greedy digit run, shortest body, and resumption
after the end of each match. -/

/-- Strip an exact literal from the head of a list. -/
def dropExact : List Char → List Char → Option (List Char)
  | [], s => some s
  | _ :: _, [] => none
  | p :: ps, c :: cs => if p = c then dropExact ps cs else none

/-- Split `s` at the earliest occurrence of `pat`, returning the part
before the occurrence and the part after it (the lazy `[\s\S]*?` match
followed by the literal). -/
def splitAtSub (pat : List Char) : List Char → Option (List Char × List Char)
  | [] => if pat.isEmpty then some ([], []) else none
  | c :: cs =>
    if listStartsWith pat (c :: cs) then some ([], (c :: cs).drop pat.length)
    else
      match splitAtSub pat cs with
      | none => none
      | some (a, b) => some (c :: a, b)

/-- Does `pat` occur as a contiguous substring? -/
def hasSub (pat s : List Char) : Bool :=
  (splitAtSub pat s).isSome

def chunkOpenLit : List Char := "<chunk id=\"".data

def chunkCloseLit : List Char := "</chunk>".data

/-- Try to match the chunk regex at the current position; on success return
the numeric id, the raw body and the remainder after the closing literal. -/
def matchChunkAt (s : List Char) : Option (Nat × List Char × List Char) :=
  match dropExact chunkOpenLit s with
  | none => none
  | some s1 =>
    let ds := takeDigits s1
    if ds.1.isEmpty then none
    else
      match dropExact ['"', '>'] ds.2 with
      | none => none
      | some s2 =>
        match splitAtSub chunkCloseLit s2 with
        | none => none
        | some (body, rest) => some (decValue ds.1, body, rest)

/-- The regex scan: try a match at every position from left to right,
resuming after the end of each match (fuel = input length suffices). -/
def scanChunksF : Nat → List Char → List (Nat × List Char)
  | 0, _ => []
  | fuel + 1, s =>
    match matchChunkAt s with
    | some (i, body, rest) => (i, body) :: scanChunksF fuel rest
    | none =>
      match s with
      | [] => []
      | _ :: tl => scanChunksF fuel tl

/-- `Map.prototype.set`: overwrite in place if the key exists, else append. -/
def jsMapSet (m : List (Nat × String)) (k : Nat) (v : String) :
    List (Nat × String) :=
  match m with
  | [] => [(k, v)]
  | (k', v') :: t => if k' = k then (k', v) :: t else (k', v') :: jsMapSet t k v

/-- `parseTranslatedPayload`: all regex matches, bodies trimmed, collected
into an insertion-ordered map. -/
def parseTranslatedPayload (response : String) : List (Nat × String) :=
  (scanChunksF response.data.length response.data).foldl
    (fun m p => jsMapSet m p.1 (String.mk (jsTrimList p.2))) []

/-- A translator response assembled from interleaved noise runs and wrapped
chunks, ending in trailing noise: the shape the decoder is meant to accept
(chunks in any order, surrounded by stray text). -/
def respBuild : List (List Char × Nat × List Char) → List Char → List Char
  | [], trail => trail
  | (nz, i, h) :: ps, trail => nz ++ (chunkWrapL i h ++ respBuild ps trail)

/-- String-level response builder over (noise, id, fragment) parts. -/
def buildResponse : List (String × Nat × String) → String → String
  | [], trail => trail
  | (nz, i, h) :: ps, trail =>
    nz ++ (String.mk (chunkWrapL i h.data) ++ buildResponse ps trail)

/-! ## block-utils.js: reconstruction and attribute restoration -/

/-- JS object property assignment on an insertion-ordered attribute list:
an existing key keeps its position, a new key is appended. -/
def objSet (l : List (String × String)) (k v : String) :
    List (String × String) :=
  match l with
  | [] => [(k, v)]
  | (k', v') :: t => if k' = k then (k', v) :: t else (k', v') :: objSet t k v

/-- Overwrite loop over a list of attribute names: for each name present
in `translated`, assign the translated value onto the accumulator. -/
def overwriteFromTranslated (names : List String)
    (base translated : List (String × String)) : List (String × String) :=
  names.foldl
    (fun acc a =>
      match List.lookup a translated with
      | some v => objSet acc a v
      | none => acc)
    base

/-- The shared overwrite loop of `reconstructBlock` and
`restoreAttributes`: start from `base`, then for each allow-listed
attribute present in `translated`, take the translated value. -/
def mergeAttribs (base translated : List (String × String)) :
    List (String × String) :=
  overwriteFromTranslated TRANSLATABLE_ATTRS base translated

/-- `reconstructBlock` as a function from the old block and the parsed
translation to the updated block.  The external `parseFn` result is given
as `parsedRoot` (`none` models `!(parsed.root && parsed.root.children)`,
the fallback that leaves the block untouched). -/
def reconstructBlock (block : Node) (translatedHtml : String)
    (parsedRoot : Option Node) (useOuter : Bool) : Node :=
  if translatedHtml = "" then block
  else
    match parsedRoot with
    | none => block
    | some root =>
      let rootChildren := root.children
      let tagNodes := rootChildren.filter fun c => c.kind == .tag
      match useOuter, tagNodes with
      | true, [rootNode] =>
        Node.mk block.kind block.name block.data
          (mergeAttribs block.attribs rootNode.attribs) rootNode.children
      | _, _ =>
        Node.mk block.kind block.name block.data block.attribs rootChildren

mutual

/-- `getFlatTags`: all tag/script/style nodes of a subtree in document
(pre-)order. -/
def getFlatTags : Node → List Node
  | .mk k nm d ats cs =>
    (if k = .tag ∨ k = .script ∨ k = .style then [Node.mk k nm d ats cs]
     else []) ++ getFlatTagsList cs

def getFlatTagsList : List Node → List Node
  | [] => []
  | c :: cs => getFlatTags c ++ getFlatTagsList cs

end

mutual

/-- Rebuild the translated tree while consuming the flattened source tag
list in pre-order; each aligned tag pair receives the merged attributes
(the model of the in-place `tagNode.attribs = newAttrs` loop). -/
def restoreNode : Node → List Node → Node × List Node
  | .mk k nm d ats cs, srcs =>
    if k = .tag ∨ k = .script ∨ k = .style then
      match srcs with
      | [] =>
        let r := restoreList cs []
        (.mk k nm d ats r.1, r.2)
      | sTag :: rest =>
        let r := restoreList cs rest
        (.mk k nm d (mergeAttribs sTag.attribs ats) r.1, r.2)
    else
      let r := restoreList cs srcs
      (.mk k nm d ats r.1, r.2)

def restoreList : List Node → List Node → List Node × List Node
  | [], srcs => ([], srcs)
  | c :: cs, srcs =>
    let r := restoreNode c srcs
    let r2 := restoreList cs r.2
    (r.1 :: r2.1, r2.2)

end

/-- `restoreAttributes` at tree level (the string endpoints parse and
re-serialize through the external parser): on any difference in flattened
tag count or positional tag name the translated tree is returned
unchanged, otherwise every aligned pair gets source attributes overwritten
by allow-listed translated values. -/
def restoreAttributes (sourceRoot translatedRoot : Node) : Node :=
  let sourceTags := getFlatTags sourceRoot
  let translatedTags := getFlatTags translatedRoot
  if sourceTags.map Node.name = translatedTags.map Node.name then
    (restoreNode translatedRoot sourceTags).1
  else translatedRoot

/-! ## Validation results -/

/-- Structured model of the validators' reason strings.  Ratios are kept
exact; the source renders them with `toFixed(2)` inside the message. -/
inductive Reason where
  | noReason
  | notAString
  | emptyTranslation
  | skippedShort
  | tooShort (ratio : Ratio)
  | tooLong (ratio : Ratio)
  | parseFailed (msg : String)
  | tagMismatch (tag : String) (expected got : Nat)
  | hallucinatedTag (tag : String) (got : Nat)
  | attrMismatch (tag attr value : String) (expected got : Nat)
  | hallucinatedAttr (tag attr value : String)
deriving DecidableEq, Repr

/-- Result record of `validateChunk`. -/
structure VResult where
  isValid : Bool
  reason : Reason
deriving DecidableEq, Repr

/-- Result record of `validateTranslationSafety` (fields the source leaves
`undefined` are `false`/`none`). -/
structure SafetyResult where
  isValid : Bool
  ratio : Ratio
  reason : Reason
  clear : Bool
  source : Option String
  target : Option String
deriving DecidableEq, Repr

/-- Option record of `validateTranslationSafety`. -/
structure SafetyOptions where
  minRatio : Ratio
  maxRatio : Ratio
  minLengthThreshold : Nat
deriving DecidableEq, Repr

/-- The defaults `{ minRatio = 0.3, maxRatio = 5.0, minLengthThreshold = 5 }`. -/
def defaultSafetyOptions : SafetyOptions :=
  ⟨⟨3, 10⟩, ⟨5, 1⟩, 5⟩

/-! ## service.js: validateTranslationSafety -/

/-- `validateTranslationSafety`.  A non-string `translated` is `none`; the
JS falsiness of `target`/`source` (empty string or null) guards the empty
check; the short-string bypass fires when the trimmed source contains no
space character or is at most the threshold long. -/
def validateTranslationSafety (original translated : Option String)
    (opts : SafetyOptions) : SafetyResult :=
  match translated with
  | none => ⟨false, ⟨0, 1⟩, .notAString, false, none, none⟩
  | some tr =>
    let source : Option (List Char) := original.map fun o => jsTrimList o.data
    let target : List Char := jsTrimList tr.data
    if target = [] ∨ source = none ∨ source = some [] then
      ⟨false, ⟨0, 1⟩, .emptyTranslation, false, none, none⟩
    else
      let src := source.getD []
      let sourceLen := jsLength src
      let targetLen := jsLength target
      if ¬ src.contains ' ' ∨ sourceLen ≤ opts.minLengthThreshold then
        ⟨true, ⟨targetLen, if sourceLen = 0 then 1 else sourceLen⟩,
          .skippedShort, false, none, none⟩
      else
        let cjk := hasCJK (src ++ target)
        let currentMin := if cjk then ⟨1, 10⟩ else opts.minRatio
        let currentMax := if cjk then ⟨8, 1⟩ else opts.maxRatio
        let ratio : Ratio := ⟨targetLen, sourceLen⟩
        if Ratio.lt ratio currentMin then
          ⟨false, ratio, .tooShort ratio, true,
            some (String.mk src), some (String.mk target)⟩
        else if Ratio.lt currentMax ratio then
          ⟨false, ratio, .tooLong ratio, false,
            some (String.mk src), some (String.mk target)⟩
        else
          ⟨true, ratio, .noReason, false,
            some (String.mk src), some (String.mk target)⟩

/-! ## validateChunk helpers -/

mutual

/-- `extractText`: concatenated text data of a subtree. -/
def extractText : Node → String
  | .mk k _ d _ cs => if k = .text then d else extractTextList cs

def extractTextList : List Node → String
  | [] => ""
  | c :: cs => extractText c ++ extractTextList cs

end

/-- ASCII lowercase of one character (tag names are ASCII). -/
def asciiLower (c : Char) : Char :=
  if 65 ≤ c.toNat ∧ c.toNat ≤ 90 then Char.ofNat (c.toNat + 32) else c

/-- Lowercased tag name, the key used by `countTags`. -/
def lowerName (s : String) : String :=
  String.mk (s.data.map asciiLower)

/-- Bump the count of a key in an insertion-ordered counting map
(`counts.set(k, (counts.get(k) || 0) + 1)`). -/
def bumpCount {α : Type} [DecidableEq α] :
    List (α × Nat) → α → List (α × Nat)
  | [], k => [(k, 1)]
  | (k', c) :: t, k =>
    if k' = k then (k', c + 1) :: t else (k', c) :: bumpCount t k

/-- Count lookup with default 0 (`counts.get(k) || 0`). -/
def lookupCount {α : Type} [DecidableEq α] (m : List (α × Nat)) (k : α) : Nat :=
  (List.lookup k m).getD 0

mutual

/-- `countTags` threaded through a pre-order traversal: tag, script and
style nodes bump the count of their lowercased name. -/
def countTagsAux : Node → List (String × Nat) → List (String × Nat)
  | .mk k nm _ _ cs, acc =>
    countTagsListAux cs
      (if k = .tag ∨ k = .script ∨ k = .style then bumpCount acc (lowerName nm)
       else acc)

def countTagsListAux : List Node → List (String × Nat) → List (String × Nat)
  | [], acc => acc
  | c :: cs, acc => countTagsListAux cs (countTagsAux c acc)

end

/-- `countTags` of a subtree. -/
def countTags (n : Node) : List (String × Nat) :=
  countTagsAux n []

/-- The critical attributes of one tag, in attribute insertion order. -/
def criticalAttribs (nm : String) : List (String × String) →
    List (String × String × String)
  | [] => []
  | (k, v) :: rest =>
    if k = "href" ∨ k = "src" ∨ k = "class" ∨ k = "id" then
      (nm, k, v) :: criticalAttribs nm rest
    else criticalAttribs nm rest

mutual

/-- `extractAttributes`: the (tag name, attribute, value) triples of all
`href`/`src`/`class`/`id` attributes, in document order (only `type ===
'tag'` nodes contribute). -/
def extractAttributesAux : Node → List (String × String × String) →
    List (String × String × String)
  | .mk k nm _ ats cs, acc =>
    extractAttributesListAux cs
      (if k = .tag then acc ++ criticalAttribs nm ats else acc)

def extractAttributesListAux : List Node → List (String × String × String) →
    List (String × String × String)
  | [], acc => acc
  | c :: cs, acc => extractAttributesListAux cs (extractAttributesAux c acc)

end

/-- `extractAttributes` of a subtree. -/
def extractAttributes (n : Node) : List (String × String × String) :=
  extractAttributesAux n []

/-- `countAttrs`: occurrence counts keyed by the full triple (the source
uses the string key `tag|attr|value`; for the attribute names involved the
two keyings coincide). -/
def countAttrs (l : List (String × String × String)) :
    List ((String × String × String) × Nat) :=
  l.foldl (fun m t => bumpCount m t) []

/-- First source-side count entry whose key has a different count on the
other side, as iterated by `for (const [tag, count] of sourceTags)`. -/
def findCountMismatch {α : Type} [DecidableEq α]
    (src tgt : List (α × Nat)) : Option (α × Nat × Nat) :=
  match src with
  | [] => none
  | (k, c) :: rest =>
    let g := lookupCount tgt k
    if c ≠ g then some (k, c, g) else findCountMismatch rest tgt

/-- First target-side count entry whose key is absent from the source side
(`!sourceTags.has(tag)`). -/
def findHallucinated {α : Type} [DecidableEq α]
    (tgt src : List (α × Nat)) : Option (α × Nat) :=
  match tgt with
  | [] => none
  | (k, c) :: rest =>
    if (List.lookup k src).isNone then some (k, c)
    else findHallucinated rest src

/-- Step 3 of `validateChunk`: attribute parity of the critical
`href`/`src`/`class`/`id` triples, then hallucinated attributes; valid
when both pass. -/
def attrParityCheck (s t : Node) : VResult :=
  let sourceAttrCounts := countAttrs (extractAttributes s)
  let translatedAttrCounts := countAttrs (extractAttributes t)
  match findCountMismatch sourceAttrCounts translatedAttrCounts with
  | some ((tg, a, v), e, g) => ⟨false, .attrMismatch tg a v e g⟩
  | none =>
    match findHallucinated translatedAttrCounts sourceAttrCounts with
    | some ((tg, a, v), _) => ⟨false, .hallucinatedAttr tg a v⟩
    | none => ⟨true, .noReason⟩

/-- Steps 2–3 of `validateChunk`: tag parity, then hallucinated tags, then
the attribute comparison. -/
def structuralCheck (s t : Node) : VResult :=
  let sourceTags := countTags s
  let translatedTags := countTags t
  match findCountMismatch sourceTags translatedTags with
  | some (tag, e, g) => ⟨false, .tagMismatch tag e g⟩
  | none =>
    match findHallucinated translatedTags sourceTags with
    | some (tag, c) => ⟨false, .hallucinatedTag tag c⟩
    | none => attrParityCheck s t

/-- Does some tag name of the source tree appear a different number of
times in the target tree? -/
def tagMismatchExists (s t : Node) : Bool :=
  (countTags s).any fun p => !(lookupCount (countTags t) p.1 == p.2)

/-- Does some tag name of the target tree not appear in the source tree's
count map at all? -/
def hallucinatedTagExists (s t : Node) : Bool :=
  (countTags t).any fun p => (List.lookup p.1 (countTags s)).isNone

/-- The default bounds of `validateChunk`: `minRatio = 0.4`,
`maxRatio = 2.5`. -/
def defaultChunkMin : Ratio := ⟨4, 10⟩

def defaultChunkMax : Ratio := ⟨25, 10⟩

/-- `validateChunk` after both fragments parsed: empty-translation check,
CJK-aware ratio check on the extracted trimmed text (only when the source
text is longer than 5), then the structural checks. -/
def validateChunkParsed (s t : Node) (minRatio maxRatio : Ratio) : VResult :=
  let sourceText := jsTrimList (extractText s).data
  let translatedText := jsTrimList (extractText t).data
  let sourceLen := jsLength sourceText
  let targetLen := jsLength translatedText
  if sourceLen > 0 ∧ targetLen = 0 then ⟨false, .emptyTranslation⟩
  else
    let cjk := hasCJK (sourceText ++ translatedText)
    let currentMin := if cjk then ⟨1, 10⟩ else minRatio
    let currentMax := if cjk then ⟨8, 1⟩ else maxRatio
    let ratio : Ratio := if sourceLen > 0 then ⟨targetLen, sourceLen⟩ else ⟨1, 1⟩
    if sourceLen > 5 ∧ Ratio.lt ratio currentMin then ⟨false, .tooShort ratio⟩
    else if sourceLen > 5 ∧ Ratio.lt currentMax ratio then ⟨false, .tooLong ratio⟩
    else structuralCheck s t

/-- `validateChunk` on strings, parameterised by the external parser
(`parse` returning `.error` models a thrown parse exception, caught and
reported): non-string target, then parse both, then the parsed checks. -/
def validateChunk (parse : String → Except String Node)
    (sourceHtml : String) (translated : Option String)
    (minRatio maxRatio : Ratio) : VResult :=
  match translated with
  | none => ⟨false, .notAString⟩
  | some t =>
    match parse sourceHtml with
    | .error e => ⟨false, .parseFailed e⟩
    | .ok sAst =>
      match parse t with
      | .error e => ⟨false, .parseFailed e⟩
      | .ok tAst => validateChunkParsed sAst tAst minRatio maxRatio

/-! ## processBlockBatch: chunk-level retries

The HTTP call is modelled by an attempt oracle `attempts : Nat → Except
String String` giving the response content (or error) of each successive
fetch; a recursion on the remaining retry budget mirrors the
`processBlockBatch(..., retries - 1, ...)` self-call. -/

inductive BatchError where
  | httpError (msg : String)
  | missingChunk (id : Nat)
  | validationFailed (id : Nat) (r : Reason)
deriving DecidableEq, Repr

/-- The per-mapping-entry loop of `processBlockBatch`: every expected chunk
id must be present in the decoded response and validate. -/
def checkMapping (parse : String → Except String Node) :
    List MapEntry → List (Nat × String) → Option BatchError
  | [], _ => none
  | m :: rest, translations =>
    match List.lookup m.index translations with
    | none => some (.missingChunk m.index)
    | some translatedHtml =>
      let v := validateChunk parse m.originalHtml (some translatedHtml)
        defaultChunkMin defaultChunkMax
      if v.isValid then checkMapping parse rest translations
      else some (.validationFailed m.index v.reason)

/-- One attempt of `processBlockBatch`: HTTP failure, or decode plus the
presence/validity checks over the mapping. -/
def attemptOutcome (parse : String → Except String Node)
    (mapping : List MapEntry) (httpResult : Except String String) :
    Except BatchError (List (Nat × String)) :=
  match httpResult with
  | .error e => .error (.httpError e)
  | .ok content =>
    let translations := parseTranslatedPayload content
    match checkMapping parse mapping translations with
    | some e => .error e
    | none => .ok translations

/-- `processBlockBatch` with its recursive retry: attempt `start`, and on
any failure retry from scratch while the budget lasts, finally propagating
the last error. -/
def processBlockBatch (parse : String → Except String Node)
    (mapping : List MapEntry) (attempts : Nat → Except String String)
    (start retries : Nat) : Except BatchError (List (Nat × String)) :=
  match attemptOutcome parse mapping (attempts start) with
  | .ok r => .ok r
  | .error e =>
    match retries with
    | 0 => .error e
    | r + 1 => processBlockBatch parse mapping attempts (start + 1) r

/-! ## service.js: repairLanguageFields -/

/-- The slicing loop `for (i = 0; i < tasks.length; i += chunkSize)`
(fuel-based; `tasks.length` fuel suffices for any positive chunk size). -/
def chunksOfF {α : Type} : Nat → Nat → List α → List (List α)
  | _, _, [] => []
  | 0, _, l => [l]
  | fuel + 1, cs, l => l.take cs :: chunksOfF fuel cs (l.drop cs)

/-- `repairLanguageFields` over a per-chunk runner (the runner abstracts
`processRepairBatch(lang, chunk, prompt, retries, options)` including its
internal retries): a failed chunk yields nulls of the chunk's length, a
successful one its results; sibling chunks are processed independently. -/
def repairLanguageFields {E : Type} (tasks : List String) (chunkSize : Nat)
    (run : Nat → List String → Except E (List String)) :
    List (List (Option String)) :=
  (chunksOfF tasks.length chunkSize tasks).enum.map fun p =>
    match run p.1 p.2 with
    | .ok results => results.map some
    | .error _ => List.replicate p.2.length none

/-- The generic recursive retry of `processRepairBatch` (attempt oracle per
try, recursion on the remaining budget). -/
def processWithRetries {E R : Type} (attempts : Nat → Except E R)
    (start retries : Nat) : Except E R :=
  match attempts start with
  | .ok r => .ok r
  | .error e =>
    match retries with
    | 0 => .error e
    | r + 1 => processWithRetries attempts (start + 1) r

/-! ## link-utils.js -/

/-- `relativePagePath.replace(/\\/g, '/')` and the WHATWG conversion of
backslashes to slashes in special-scheme URLs. -/
def backslashToSlash (l : List Char) : List Char :=
  l.map fun c => if c = '\\' then '/' else c

def isLowerAlpha (c : Char) : Bool :=
  97 ≤ c.toNat && c.toNat ≤ 122

/-- The anchored regex `^[a-z]+:` of the absolute-URL skip. -/
def matchesLowerScheme (l : List Char) : Bool :=
  let letters := l.takeWhile isLowerAlpha
  !letters.isEmpty && (l.drop letters.length).head? == some ':'

def isAlphaChar (c : Char) : Bool :=
  (65 ≤ c.toNat && c.toNat ≤ 90) || isLowerAlpha c

def isSchemeChar (c : Char) : Bool :=
  isAlphaChar c || isDigitChar c || c = '+' || c = '-' || c = '.'

/-- A case-insensitive URL scheme pattern `[A-Za-z][A-Za-z0-9+.-]*:` at the
head: the URL API treats such hrefs as carrying a scheme. -/
def hasSchemePat : List Char → Bool
  | [] => false
  | c :: cs =>
    isAlphaChar c && ((cs.dropWhile isSchemeChar).head? == some ':')

/-- The scheme letters of a scheme-carrying reference, ASCII-lowercased
(the URL API lowercases schemes). -/
def schemeOf (l : List Char) : List Char :=
  (l.takeWhile isSchemeChar).map asciiLower

/-- The remainder of a scheme-carrying reference after its colon. -/
def afterSchemeColon (l : List Char) : List Char :=
  (l.dropWhile isSchemeChar).drop 1

/-- WHATWG input preprocessing of `new URL`: ASCII tab, LF and CR are
removed anywhere; leading and trailing C0 controls and spaces are
stripped. -/
def urlPreprocess (l : List Char) : List Char :=
  let noTabNl := l.filter fun c => !(c = '\t' || c = '\n' || c = '\r')
  ((noTabNl.dropWhile fun c => c.toNat ≤ 32).reverse.dropWhile
    fun c => c.toNat ≤ 32).reverse

/-- Two leading slashes, where in special URLs `\` counts as `/`, make
the reference name an explicit authority. -/
def startsWithTwoSlashes : List Char → Bool
  | c1 :: c2 :: _ => (c1 = '/' || c1 = '\\') && (c2 = '/' || c2 = '\\')
  | _ => false

/-- Uppercase hexadecimal digit. -/
def hexDigit (n : Nat) : Char :=
  if n < 10 then Char.ofNat (48 + n) else Char.ofNat (55 + n)

/-- UTF-8 bytes of one code point. -/
def utf8Bytes (c : Char) : List Nat :=
  let n := c.toNat
  if n < 128 then [n]
  else if n < 2048 then [192 + n / 64, 128 + n % 64]
  else if n < 65536 then [224 + n / 4096, 128 + n / 64 % 64, 128 + n % 64]
  else [240 + n / 262144, 128 + n / 4096 % 64, 128 + n / 64 % 64,
    128 + n % 64]

/-- `%XX` with uppercase hex digits. -/
def pctByte (b : Nat) : List Char :=
  ['%', hexDigit (b / 16), hexDigit (b % 16)]

/-- UTF-8 percent-encode the characters selected by `inSet`; all other
characters (including `%` itself) are copied verbatim. -/
def percentEncodeWith (inSet : Char → Bool) (l : List Char) : List Char :=
  (l.map fun c =>
    if inSet c then ((utf8Bytes c).map pctByte).flatten else [c]).flatten

/-- C0 controls and code points above U+007E. -/
def c0OrHigh (c : Char) : Bool := c.toNat ≤ 31 || 126 < c.toNat

/-- The WHATWG fragment percent-encode set: C0/high, space, quote, angle
brackets and backtick (code 96). -/
def fragmentEncodeSet (c : Char) : Bool :=
  c0OrHigh c || c = ' ' || c = '"' || c = '<' || c = '>' || c.toNat = 96

/-- The WHATWG special-query percent-encode set: the query set plus the
apostrophe (code 39). -/
def specialQueryEncodeSet (c : Char) : Bool :=
  c0OrHigh c || c = ' ' || c = '"' || c = '#' || c = '<' || c = '>' ||
    c.toNat = 39

/-- The WHATWG path percent-encode set: the query set plus question mark,
backtick (96) and curly braces (123, 125). -/
def pathEncodeSet (c : Char) : Bool :=
  c0OrHigh c || c = ' ' || c = '"' || c = '#' || c = '<' || c = '>' ||
    c = '?' || c.toNat = 96 || c.toNat = 123 || c.toNat = 125

/-- A single-dot path segment, `%2e` spelling included
(ASCII-case-insensitively). -/
def isSingleDotSeg (l : List Char) : Bool :=
  l = ['.'] || l.map asciiLower = "%2e".data

/-- A double-dot path segment, `%2e` spellings included. -/
def isDoubleDotSeg (l : List Char) : Bool :=
  l = ['.', '.'] || l.map asciiLower = ".%2e".data ||
    l.map asciiLower = "%2e.".data || l.map asciiLower = "%2e%2e".data

/-- Split at the first occurrence of a separator character, keeping the
part after it when present. -/
def splitFirst (sep : Char) : List Char → List Char × Option (List Char)
  | [] => ([], none)
  | c :: cs =>
    if c = sep then ([], some cs)
    else
      let r := splitFirst sep cs
      (c :: r.1, r.2)

/-- `url.hash`: empty when there is no fragment or the fragment is empty,
otherwise `#` plus the fragment. -/
def hashPart : Option (List Char) → List Char
  | none => []
  | some [] => []
  | some f => '#' :: f

/-- `url.search`, analogously with `?`. -/
def searchPart : Option (List Char) → List Char
  | none => []
  | some [] => []
  | some q => '?' :: q

/-- Split a path into `/`-separated segments. -/
def splitSeg (sep : Char) : List Char → List (List Char)
  | [] => [[]]
  | c :: cs =>
    let r := splitSeg sep cs
    if c = sep then [] :: r
    else
      match r with
      | [] => [[c]]
      | h :: t => (c :: h) :: t

def joinWith (sep : List Char) : List (List Char) → List Char
  | [] => []
  | [x] => x
  | x :: xs => x ++ sep ++ joinWith sep xs

/-- WHATWG remove-dot-segments over the segment list (the stack holds the
output segments reversed; a trailing `.`/`..` leaves a trailing slash;
`..` above the root is ignored). -/
def removeDotSegs : List (List Char) → List (List Char) → List (List Char)
  | [], stack => stack.reverse
  | [last], stack =>
    if isSingleDotSeg last then stack.reverse ++ [[]]
    else if isDoubleDotSeg last then (stack.drop 1).reverse ++ [[]]
    else stack.reverse ++ [last]
  | s :: rest, stack =>
    if isSingleDotSeg s then removeDotSegs rest stack
    else if isDoubleDotSeg s then removeDotSegs rest (stack.drop 1)
    else removeDotSegs rest (s :: stack)

/-- Normalize an absolute path (starting with `/`). -/
def normalizePath (p : List Char) : List Char :=
  '/' :: joinWith ['/'] (removeDotSegs (splitSeg '/' (p.drop 1)) [])

/-- Directory of a base path: everything up to and including the last `/`. -/
def dirOf (p : List Char) : List Char :=
  (p.reverse.dropWhile (· ≠ '/')).reverse

/-- The base pathname of `new URL(normalizedPagePath, 'http://dummy.com/')`:
strip any fragment and query, root the path. -/
def basePathOf (pagePath : List Char) : List Char :=
  let noHash := (splitFirst '#' pagePath).1
  let noQuery := (splitFirst '?' noHash).1
  if noQuery.head? == some '/' then normalizePath noQuery
  else normalizePath ('/' :: noQuery)

/-- Resolution of a same-origin relative reference (no scheme, no
authority) against the base path: split off fragment then query, treat
`\` as `/` in the path part only, resolve the path (an empty path keeps
the base path, an absolute path restarts at the root, otherwise merge
with the base directory), remove dot segments, then UTF-8 percent-encode
the path, query and fragment with their WHATWG sets; returns
`(pathname, search, hash)`. -/
def resolveRefParts (basePath href : List Char) :
    List Char × List Char × List Char :=
  let s1 := splitFirst '#' href
  let s2 := splitFirst '?' s1.1
  let rawPath := backslashToSlash s2.1
  let pathname :=
    if rawPath = [] then basePath
    else if rawPath.head? == some '/' then normalizePath rawPath
    else normalizePath (dirOf basePath ++ rawPath)
  (percentEncodeWith pathEncodeSet pathname,
    searchPart (s2.2.map (percentEncodeWith specialQueryEncodeSet)),
    hashPart (s1.2.map (percentEncodeWith fragmentEncodeSet)))

/-- `path.extname` of a pathname: the suffix of the basename from its last
dot, empty when there is no dot or the only dot starts the basename. -/
def basenameOf (p : List Char) : List Char :=
  (p.reverse.takeWhile (· ≠ '/')).reverse

def extnameOf (p : List Char) : List Char :=
  let b := basenameOf p
  let afterDot := b.reverse.takeWhile (· ≠ '.')
  if afterDot.length = b.length then []
  else if afterDot.length + 1 = b.length then []
  else '.' :: afterDot.reverse

/-- The reference that `new URL(href, base)` resolves against the dummy
base, for a preprocessed href that survived the literal skips.  A scheme
that is a case variant of `http` (the all-lowercase form was already
skipped by the regex) falls into the WHATWG same-special-scheme quirk and
resolves exactly like its remainder; any other scheme never yields the
dummy origin; an explicit authority (two leading slashes, `\` included)
is modelled as never being the dummy host.  `none` means the origin check
of `prefixPath` fails. -/
def refTarget (l : List Char) : Option (List Char) :=
  if hasSchemePat l then
    if schemeOf l = "http".data then
      if startsWithTwoSlashes (afterSchemeColon l) then none
      else some (afterSchemeColon l)
    else none
  else if startsWithTwoSlashes l then none
  else some l

/-- `prefixPath`: skip fragments, mailto/tel, lowercase-scheme absolute
and protocol-relative hrefs; resolve the rest against the synthetic base
`http://dummy.com/` + page path, require the dummy origin, skip non-HTML
extensions; otherwise prepend `/targetLang` and reassemble with the query
and fragment.  Returns `none` for "no change". -/
def prefixPath (href targetLang relativePagePath : String) : Option String :=
  let h := href.data
  if listStartsWith "#".data h then none
  else if listStartsWith "mailto:".data h then none
  else if listStartsWith "tel:".data h then none
  else if matchesLowerScheme h then none
  else if listStartsWith "//".data h then none
  else
    match refTarget (urlPreprocess h) with
    | none => none
    | some r =>
      let basePath :=
        basePathOf (urlPreprocess (backslashToSlash relativePagePath.data))
      let parts := resolveRefParts basePath r
      let ext := extnameOf parts.1
      if ¬ (ext = [] ∨ ext = ".html".data) then none
      else
        some (String.mk (('/' :: targetLang.data) ++ parts.1 ++ parts.2.1 ++
          parts.2.2))

mutual

/-- `processRelativeLinks`: every `a` node with a truthy `href` attribute
has it replaced when `prefixPath` returns a new value; the traversal then
descends into the children. -/
def processRelativeLinks (targetLang relativePagePath : String) :
    Node → Node
  | .mk k nm d ats cs =>
    let ats2 :=
      if nm = "a" then
        match List.lookup "href" ats with
        | some hv =>
          if hv ≠ "" then
            match prefixPath hv targetLang relativePagePath with
            | some nh => objSet ats "href" nh
            | none => ats
          else ats
        | none => ats
      else ats
    .mk k nm d ats2 (processLinksList targetLang relativePagePath cs)

def processLinksList (targetLang relativePagePath : String) :
    List Node → List Node
  | [] => []
  | c :: cs =>
    processRelativeLinks targetLang relativePagePath c ::
      processLinksList targetLang relativePagePath cs

end

/-! ## Concrete tree builders used by examples and witnesses -/

/-- A text node as produced by the parser. -/
def textNode (s : String) : Node := .mk .text "" s [] []

/-- A tag node. -/
def tagNode (nm : String) (ats : List (String × String)) (cs : List Node) :
    Node :=
  .mk .tag nm "" ats cs

/-- A parse root. -/
def rootNode (cs : List Node) : Node := .mk .root "" "" [] cs


/-! # Supporting lemmas -/

/-! ## Insertion-ordered maps -/

theorem objSet_lookup (l : List (String × String)) (k v x : String) :
    List.lookup x (objSet l k v) = if x = k then some v else List.lookup x l := by
  induction l with
  | nil =>
    simp only [objSet]
    by_cases hx : x = k
    · have hb : (x == k) = true := beq_iff_eq.mpr hx
      simp [List.lookup, hb, hx]
    · have hb : (x == k) = false := beq_eq_false_iff_ne.mpr hx
      simp [List.lookup, hb, hx]
  | cons p t ih =>
    obtain ⟨k', v'⟩ := p
    simp only [objSet]
    by_cases hk : k' = k
    · subst hk
      by_cases hx : x = k'
      · have hb : (x == k') = true := beq_iff_eq.mpr hx
        simp [List.lookup, hb, hx]
      · have hb : (x == k') = false := beq_eq_false_iff_ne.mpr hx
        simp [List.lookup, hb, hx]
    · rw [if_neg hk]
      by_cases hx : x = k'
      · have hb : (x == k') = true := beq_iff_eq.mpr hx
        have hxk : ¬ x = k := by
          rw [hx]; exact fun h => hk h
        simp [List.lookup, hb, hxk]
      · have hb : (x == k') = false := beq_eq_false_iff_ne.mpr hx
        simp [List.lookup, hb, ih]

theorem overwriteFromTranslated_lookup (names : List String)
    (hnd : names.Nodup) (base tr : List (String × String)) (x : String) :
    List.lookup x (overwriteFromTranslated names base tr) =
      if x ∈ names then
        match List.lookup x tr with
        | some v => some v
        | none => List.lookup x base
      else List.lookup x base := by
  induction names generalizing base with
  | nil => simp [overwriteFromTranslated]
  | cons a ns ih =>
    have hnd' : ns.Nodup := hnd.of_cons
    have hanotin : a ∉ ns := by
      intro hmem
      exact (List.nodup_cons.mp hnd).1 hmem
    have hstep :
        overwriteFromTranslated (a :: ns) base tr =
          overwriteFromTranslated ns
            (match List.lookup a tr with
             | some v => objSet base a v
             | none => base) tr := by
      simp [overwriteFromTranslated]
    rw [hstep, ih hnd']
    by_cases hx : x = a
    · subst hx
      simp [hanotin]
      cases htr : List.lookup x tr with
      | none => simp [htr]
      | some v => simp [htr, objSet_lookup]
    · have hbase :
          List.lookup x
              (match List.lookup a tr with
               | some v => objSet base a v
               | none => base) = List.lookup x base := by
        cases htr : List.lookup a tr with
        | none => rfl
        | some v => simp [objSet_lookup, hx]
      by_cases hmem : x ∈ ns <;> simp [hmem, hx, hbase]

theorem mergeAttribs_lookup (base tr : List (String × String)) (x : String) :
    List.lookup x (mergeAttribs base tr) =
      if x ∈ TRANSLATABLE_ATTRS then
        match List.lookup x tr with
        | some v => some v
        | none => List.lookup x base
      else List.lookup x base :=
  overwriteFromTranslated_lookup TRANSLATABLE_ATTRS (by decide) base tr x

/-! ## Lengths -/

theorem jsLength_nil : jsLength [] = 0 := rfl

theorem jsLength_pos (l : List Char) (h : l ≠ []) : 0 < jsLength l := by
  cases l with
  | nil => exact absurd rfl h
  | cons c cs =>
    have : 1 ≤ utf16Width c := by
      unfold utf16Width
      split <;> omega
    simp [jsLength]
    omega

/-! # Claim C10: reconstruction frame effect -/

/-- C10.  For every block whose translated fragment parses (in outer mode)
to exactly one top-level tag node, `reconstructBlock` overwrites only the
attributes named alt, title, placeholder or aria-label (and only when the
parsed root tag carries them, falling back to the block's old value
otherwise); every other attribute of the block keeps the value it had
before reconstruction, whatever the parsed root tag carries. -/
theorem C10_reconstruct_frame (block : Node) (translatedHtml : String)
    (root rt : Node) (a : String)
    (hhtml : translatedHtml ≠ "")
    (hfilter : root.children.filter (fun c => c.kind == NKind.tag) = [rt]) :
    (a ∉ TRANSLATABLE_ATTRS →
      List.lookup a
          (reconstructBlock block translatedHtml (some root) true).attribs =
        List.lookup a block.attribs) ∧
    (a ∈ TRANSLATABLE_ATTRS →
      List.lookup a
          (reconstructBlock block translatedHtml (some root) true).attribs =
        match List.lookup a rt.attribs with
        | some v => some v
        | none => List.lookup a block.attribs) ∧
    (reconstructBlock block translatedHtml (some root) true).children =
      rt.children := by
  have hrec :
      reconstructBlock block translatedHtml (some root) true =
        Node.mk block.kind block.name block.data
          (mergeAttribs block.attribs rt.attribs) rt.children := by
    unfold reconstructBlock
    rw [if_neg hhtml]
    simp only [hfilter]
  rw [hrec]
  refine ⟨fun hnotin => ?_, fun hin => ?_, rfl⟩
  · simp [Node.attribs, mergeAttribs_lookup, hnotin]
  · simp [Node.attribs, mergeAttribs_lookup, hin]

/-- Witness for C10 at the concrete block
`<a href="/x" alt="old">s</a>` reconstructed from the parsed translation
`<a href="/y" alt="neu">t</a>`: `href` keeps `/x`, while `alt` takes the
translated value. -/
theorem C10_witness :
    ("href" ∉ TRANSLATABLE_ATTRS →
      List.lookup "href"
          (reconstructBlock (tagNode "a" [("href", "/x"), ("alt", "old")]
              [textNode "s"]) "x"
            (some (rootNode [tagNode "a" [("href", "/y"), ("alt", "neu")]
              [textNode "t"]])) true).attribs =
        List.lookup "href"
          (tagNode "a" [("href", "/x"), ("alt", "old")] [textNode "s"]).attribs) ∧
    ("href" ∈ TRANSLATABLE_ATTRS →
      List.lookup "href"
          (reconstructBlock (tagNode "a" [("href", "/x"), ("alt", "old")]
              [textNode "s"]) "x"
            (some (rootNode [tagNode "a" [("href", "/y"), ("alt", "neu")]
              [textNode "t"]])) true).attribs =
        match List.lookup "href"
            (tagNode "a" [("href", "/y"), ("alt", "neu")] [textNode "t"]).attribs with
        | some v => some v
        | none =>
          List.lookup "href"
            (tagNode "a" [("href", "/x"), ("alt", "old")] [textNode "s"]).attribs) ∧
    (reconstructBlock (tagNode "a" [("href", "/x"), ("alt", "old")]
        [textNode "s"]) "x"
      (some (rootNode [tagNode "a" [("href", "/y"), ("alt", "neu")]
        [textNode "t"]])) true).children =
      (tagNode "a" [("href", "/y"), ("alt", "neu")] [textNode "t"]).children :=
  C10_reconstruct_frame
    (tagNode "a" [("href", "/x"), ("alt", "old")] [textNode "s"]) "x"
    (rootNode [tagNode "a" [("href", "/y"), ("alt", "neu")] [textNode "t"]])
    (tagNode "a" [("href", "/y"), ("alt", "neu")] [textNode "t"]) "href"
    (by decide) (by rfl)

/-! # Claim C7: the validators are total and report errors as results -/

/-- C7.  Both validators always return a `{ valid, reason }` record (they
are total Lean functions by construction): a non-string target yields an
invalid result in either mode; an empty trimmed target with a non-empty
trimmed source yields an invalid result with the empty-translation reason
in either mode; and a parse failure on either fragment during the
structural check of `validateChunk` (for any behaviour of the external
parser) yields an invalid result whose reason carries the parse error
message instead of propagating the exception. -/
theorem C7_validator_total :
    (∀ (original : Option String) (opts : SafetyOptions),
      validateTranslationSafety original none opts =
        ⟨false, ⟨0, 1⟩, .notAString, false, none, none⟩) ∧
    (∀ (orig t : String) (opts : SafetyOptions),
      jsTrimList orig.data ≠ [] → jsTrimList t.data = [] →
      validateTranslationSafety (some orig) (some t) opts =
        ⟨false, ⟨0, 1⟩, .emptyTranslation, false, none, none⟩) ∧
    (∀ (parse : String → Except String Node) (src : String) (m M : Ratio),
      validateChunk parse src none m M = ⟨false, .notAString⟩) ∧
    (∀ (parse : String → Except String Node) (src t e : String) (m M : Ratio),
      parse src = .error e →
      validateChunk parse src (some t) m M = ⟨false, .parseFailed e⟩) ∧
    (∀ (parse : String → Except String Node) (src t e : String)
        (sAst : Node) (m M : Ratio),
      parse src = .ok sAst → parse t = .error e →
      validateChunk parse src (some t) m M = ⟨false, .parseFailed e⟩) ∧
    (∀ (s t : Node) (m M : Ratio),
      jsTrimList (extractText s).data ≠ [] →
      jsTrimList (extractText t).data = [] →
      validateChunkParsed s t m M = ⟨false, .emptyTranslation⟩) := by
  refine ⟨?_, ?_, ?_, ?_, ?_, ?_⟩
  · intro original opts
    rfl
  · intro orig t opts hsrc htgt
    unfold validateTranslationSafety
    have hcond :
        jsTrimList t.data = [] ∨
          (Option.map (fun o => jsTrimList o.data) (some orig)) = none ∨
          (Option.map (fun o => jsTrimList o.data) (some orig)) = some [] :=
      Or.inl htgt
    simp only [Option.map_some]
    rw [if_pos (by simpa using Or.inl htgt)]
  · intro parse src m M
    rfl
  · intro parse src t e m M hp
    simp [validateChunk, hp]
  · intro parse src t e sAst m M hs ht
    simp [validateChunk, hs, ht]
  · intro s t m M hsrc htgt
    unfold validateChunkParsed
    have hlen : jsLength (jsTrimList (extractText t).data) = 0 := by
      rw [htgt]; rfl
    rw [if_pos ⟨jsLength_pos _ hsrc, hlen⟩]

/-- Witness for C7: the empty-target case at concrete strings, via the
theorem's second conjunct. -/
theorem C7_witness :
    jsTrimList "hello".data ≠ [] ∧ jsTrimList "  ".data = [] ∧
    validateTranslationSafety (some "hello") (some "  ")
        defaultSafetyOptions =
      ⟨false, ⟨0, 1⟩, .emptyTranslation, false, none, none⟩ :=
  ⟨by decide, by decide,
    C7_validator_total.2.1 "hello" "  " defaultSafetyOptions
      (by decide) (by decide)⟩

/-! # Claim C1: the ratio policy of the two validation modes -/

theorem Ratio.lt_false_iff_le (a b : Ratio) :
    Ratio.lt a b = false ↔ Ratio.le b a = true := by
  simp only [Ratio.lt, Ratio.le, decide_eq_false_iff_not, decide_eq_true_eq,
    not_lt]

theorem Ratio.lt_le_absurd (a b : Ratio) (h1 : Ratio.lt a b = true)
    (h2 : Ratio.le b a = true) : False := by
  simp only [Ratio.lt, Ratio.le, decide_eq_true_eq] at h1 h2
  omega

theorem Ratio.lt_lt_absurd_cjk (r : Ratio) (h1 : Ratio.lt r ⟨1, 10⟩ = true)
    (h2 : Ratio.lt ⟨8, 1⟩ r = true) : False := by
  simp only [Ratio.lt, decide_eq_true_eq] at h1 h2
  omega

theorem Ratio.lt_lt_absurd_safety (r : Ratio) (h1 : Ratio.lt r ⟨3, 10⟩ = true)
    (h2 : Ratio.lt ⟨5, 1⟩ r = true) : False := by
  simp only [Ratio.lt, decide_eq_true_eq] at h1 h2
  omega

theorem Ratio.lt_lt_absurd_chunk (r : Ratio) (h1 : Ratio.lt r ⟨4, 10⟩ = true)
    (h2 : Ratio.lt ⟨25, 10⟩ r = true) : False := by
  simp only [Ratio.lt, decide_eq_true_eq] at h1 h2
  omega

/-- C1 counterexample.  The claim says both validation modes share the
default bounds `[0.3, 5.0]`.  For the source text `"ab cdefghi"` (trimmed
length 10, contains a space, no CJK) and a 35-character target the ratio
is 3.5, inside `[0.3, 5.0]` — so the claim predicts valid in both modes —
yet the fragment-mode chunk validator (with the defaults it is always
called with) rejects it as too long, because its actual default bounds are
`[0.4, 2.5]`; the text-only safety check accepts the same pair. -/
theorem C1_counterexample :
    Ratio.le ⟨3, 10⟩ ⟨35, 10⟩ = true ∧
    Ratio.le ⟨35, 10⟩ ⟨5, 1⟩ = true ∧
    hasCJK ("ab cdefghi".data ++
      "ccccccccccccccccccccccccccccccccccc".data) = false ∧
    validateChunkParsed (textNode "ab cdefghi")
        (textNode "ccccccccccccccccccccccccccccccccccc")
        defaultChunkMin defaultChunkMax =
      ⟨false, .tooLong ⟨35, 10⟩⟩ ∧
    (validateTranslationSafety (some "ab cdefghi")
        (some "ccccccccccccccccccccccccccccccccccc")
        defaultSafetyOptions).isValid = true := by
  refine ⟨by decide, by decide, by decide, by rfl, by rfl⟩

/-- C1 amended.  For the text-only safety check
(`validateTranslationSafety`), whenever the trimmed source contains a
space, has length over the threshold 5, and the trimmed target is
non-empty, the result is valid exactly when the ratio
`targetLen/sourceLen` (over trimmed UTF-16 lengths) lies within
`[0.3, 5.0]`, relaxed to `[0.1, 8.0]` when either string contains a CJK
code point, and an out-of-bounds ratio produces the too-short/too-long
reason carrying the ratio (the source renders it with `toFixed(2)`).  For
the fragment-mode chunk validator (`validateChunkParsed`), the ratio is
computed over the trimmed extracted text of the two parsed fragments, the
check fires whenever the source text length exceeds 5 (no space
requirement), and the default bounds are `[0.4, 2.5]` rather than
`[0.3, 5.0]`, with the same CJK relaxation; inside the bounds the
validator proceeds to the structural check. -/
theorem C1_ratio_policy_amended :
    (∀ s t : String,
      (jsTrimList s.data).contains ' ' = true →
      5 < jsLength (jsTrimList s.data) →
      jsTrimList t.data ≠ [] →
      ((validateTranslationSafety (some s) (some t)
          defaultSafetyOptions).isValid = true ↔
        (Ratio.le
            (if hasCJK (jsTrimList s.data ++ jsTrimList t.data)
             then ⟨1, 10⟩ else ⟨3, 10⟩)
            ⟨jsLength (jsTrimList t.data), jsLength (jsTrimList s.data)⟩ = true ∧
         Ratio.le
            ⟨jsLength (jsTrimList t.data), jsLength (jsTrimList s.data)⟩
            (if hasCJK (jsTrimList s.data ++ jsTrimList t.data)
             then ⟨8, 1⟩ else ⟨5, 1⟩) = true)) ∧
      (Ratio.lt
          ⟨jsLength (jsTrimList t.data), jsLength (jsTrimList s.data)⟩
          (if hasCJK (jsTrimList s.data ++ jsTrimList t.data)
           then ⟨1, 10⟩ else ⟨3, 10⟩) = true →
        (validateTranslationSafety (some s) (some t)
            defaultSafetyOptions).reason =
          .tooShort ⟨jsLength (jsTrimList t.data),
            jsLength (jsTrimList s.data)⟩) ∧
      (Ratio.lt
          (if hasCJK (jsTrimList s.data ++ jsTrimList t.data)
           then ⟨8, 1⟩ else ⟨5, 1⟩)
          ⟨jsLength (jsTrimList t.data), jsLength (jsTrimList s.data)⟩ = true →
        (validateTranslationSafety (some s) (some t)
            defaultSafetyOptions).reason =
          .tooLong ⟨jsLength (jsTrimList t.data),
            jsLength (jsTrimList s.data)⟩)) ∧
    (∀ s t : Node,
      5 < jsLength (jsTrimList (extractText s).data) →
      jsTrimList (extractText t).data ≠ [] →
      (Ratio.lt
          ⟨jsLength (jsTrimList (extractText t).data),
            jsLength (jsTrimList (extractText s).data)⟩
          (if hasCJK (jsTrimList (extractText s).data ++
              jsTrimList (extractText t).data)
           then ⟨1, 10⟩ else ⟨4, 10⟩) = true →
        validateChunkParsed s t defaultChunkMin defaultChunkMax =
          ⟨false, .tooShort ⟨jsLength (jsTrimList (extractText t).data),
            jsLength (jsTrimList (extractText s).data)⟩⟩) ∧
      (Ratio.lt
          (if hasCJK (jsTrimList (extractText s).data ++
              jsTrimList (extractText t).data)
           then ⟨8, 1⟩ else ⟨25, 10⟩)
          ⟨jsLength (jsTrimList (extractText t).data),
            jsLength (jsTrimList (extractText s).data)⟩ = true →
        validateChunkParsed s t defaultChunkMin defaultChunkMax =
          ⟨false, .tooLong ⟨jsLength (jsTrimList (extractText t).data),
            jsLength (jsTrimList (extractText s).data)⟩⟩) ∧
      (Ratio.lt
          ⟨jsLength (jsTrimList (extractText t).data),
            jsLength (jsTrimList (extractText s).data)⟩
          (if hasCJK (jsTrimList (extractText s).data ++
              jsTrimList (extractText t).data)
           then ⟨1, 10⟩ else ⟨4, 10⟩) = false →
        Ratio.lt
          (if hasCJK (jsTrimList (extractText s).data ++
              jsTrimList (extractText t).data)
           then ⟨8, 1⟩ else ⟨25, 10⟩)
          ⟨jsLength (jsTrimList (extractText t).data),
            jsLength (jsTrimList (extractText s).data)⟩ = false →
        validateChunkParsed s t defaultChunkMin defaultChunkMax =
          structuralCheck s t)) := by
  constructor
  · intro s t hspace hlen htgt
    have hsrcne : jsTrimList s.data ≠ [] := by
      intro h
      rw [h] at hlen
      simp [jsLength] at hlen
    have g2 : ¬ (¬ (jsTrimList s.data).contains ' ' = true ∨
        jsLength (jsTrimList s.data) ≤ defaultSafetyOptions.minLengthThreshold) := by
      push_neg
      exact ⟨hspace, hlen⟩
    cases hc : hasCJK (jsTrimList s.data ++ jsTrimList t.data) with
    | true =>
      have e1 : validateTranslationSafety (some s) (some t)
          defaultSafetyOptions =
          (if Ratio.lt ⟨jsLength (jsTrimList t.data),
              jsLength (jsTrimList s.data)⟩ ⟨1, 10⟩ = true then
            ⟨false,
              ⟨jsLength (jsTrimList t.data), jsLength (jsTrimList s.data)⟩,
              .tooShort ⟨jsLength (jsTrimList t.data),
                jsLength (jsTrimList s.data)⟩, true,
              some (String.mk (jsTrimList s.data)),
              some (String.mk (jsTrimList t.data))⟩
          else if Ratio.lt ⟨8, 1⟩ ⟨jsLength (jsTrimList t.data),
              jsLength (jsTrimList s.data)⟩ = true then
            ⟨false,
              ⟨jsLength (jsTrimList t.data), jsLength (jsTrimList s.data)⟩,
              .tooLong ⟨jsLength (jsTrimList t.data),
                jsLength (jsTrimList s.data)⟩, false,
              some (String.mk (jsTrimList s.data)),
              some (String.mk (jsTrimList t.data))⟩
          else
            ⟨true,
              ⟨jsLength (jsTrimList t.data), jsLength (jsTrimList s.data)⟩,
              .noReason, false,
              some (String.mk (jsTrimList s.data)),
              some (String.mk (jsTrimList t.data))⟩) := by
        simp only [validateTranslationSafety, Option.map_some', Option.getD_some]
        rw [if_neg (by simp [htgt, hsrcne]), if_neg g2]
        simp only [hc, eq_self_iff_true, if_true]
      cases hlo : Ratio.lt ⟨jsLength (jsTrimList t.data),
          jsLength (jsTrimList s.data)⟩ ⟨1, 10⟩ with
      | true =>
        have heq := e1
        rw [hlo, if_pos rfl] at heq
        refine ⟨?_, fun _ => by rw [heq], fun hhi => ?_⟩
        · rw [heq]
          constructor
          · intro h
            exact absurd h (by simp)
          · rintro ⟨h1, h2⟩
            exact absurd (Ratio.lt_le_absurd _ _ hlo h1) not_false
        · exact absurd (Ratio.lt_lt_absurd_cjk _ hlo hhi) not_false
      | false =>
        have heq := e1
        rw [hlo] at heq
        simp only [Bool.false_eq_true, if_false] at heq
        cases hhi : Ratio.lt (⟨8, 1⟩ : Ratio) ⟨jsLength (jsTrimList t.data),
            jsLength (jsTrimList s.data)⟩ with
        | true =>
          rw [hhi, if_pos rfl] at heq
          refine ⟨?_, fun hlo2 => by simp [hlo] at hlo2, fun _ => by rw [heq]⟩
          rw [heq]
          constructor
          · intro h
            exact absurd h (by simp)
          · rintro ⟨h1, h2⟩
            exact absurd (Ratio.lt_le_absurd _ _ hhi h2) not_false
        | false =>
          rw [hhi] at heq
          simp only [Bool.false_eq_true, if_false] at heq
          refine ⟨?_, fun hlo2 => by simp [hlo] at hlo2,
            fun hhi2 => by simp [hhi] at hhi2⟩
          rw [heq]
          simp only [true_iff]
          exact ⟨(Ratio.lt_false_iff_le _ _).mp hlo,
            (Ratio.lt_false_iff_le _ _).mp hhi⟩
    | false =>
      have e1 : validateTranslationSafety (some s) (some t)
          defaultSafetyOptions =
          (if Ratio.lt ⟨jsLength (jsTrimList t.data),
              jsLength (jsTrimList s.data)⟩ ⟨3, 10⟩ = true then
            ⟨false,
              ⟨jsLength (jsTrimList t.data), jsLength (jsTrimList s.data)⟩,
              .tooShort ⟨jsLength (jsTrimList t.data),
                jsLength (jsTrimList s.data)⟩, true,
              some (String.mk (jsTrimList s.data)),
              some (String.mk (jsTrimList t.data))⟩
          else if Ratio.lt ⟨5, 1⟩ ⟨jsLength (jsTrimList t.data),
              jsLength (jsTrimList s.data)⟩ = true then
            ⟨false,
              ⟨jsLength (jsTrimList t.data), jsLength (jsTrimList s.data)⟩,
              .tooLong ⟨jsLength (jsTrimList t.data),
                jsLength (jsTrimList s.data)⟩, false,
              some (String.mk (jsTrimList s.data)),
              some (String.mk (jsTrimList t.data))⟩
          else
            ⟨true,
              ⟨jsLength (jsTrimList t.data), jsLength (jsTrimList s.data)⟩,
              .noReason, false,
              some (String.mk (jsTrimList s.data)),
              some (String.mk (jsTrimList t.data))⟩) := by
        simp only [validateTranslationSafety, Option.map_some', Option.getD_some]
        rw [if_neg (by simp [htgt, hsrcne]), if_neg g2]
        simp only [hc, Bool.false_eq_true, if_false]
        try rfl
      cases hlo : Ratio.lt ⟨jsLength (jsTrimList t.data),
          jsLength (jsTrimList s.data)⟩ ⟨3, 10⟩ with
      | true =>
        have heq := e1
        rw [hlo, if_pos rfl] at heq
        refine ⟨?_, fun _ => by rw [heq], fun hhi => ?_⟩
        · rw [heq]
          constructor
          · intro h
            exact absurd h (by simp)
          · rintro ⟨h1, h2⟩
            exact absurd (Ratio.lt_le_absurd _ _ hlo h1) not_false
        · exact absurd (Ratio.lt_lt_absurd_safety _ hlo hhi) not_false
      | false =>
        have heq := e1
        rw [hlo] at heq
        simp only [Bool.false_eq_true, if_false] at heq
        cases hhi : Ratio.lt (⟨5, 1⟩ : Ratio) ⟨jsLength (jsTrimList t.data),
            jsLength (jsTrimList s.data)⟩ with
        | true =>
          rw [hhi, if_pos rfl] at heq
          refine ⟨?_, fun hlo2 => by simp [hlo] at hlo2, fun _ => by rw [heq]⟩
          rw [heq]
          constructor
          · intro h
            exact absurd h (by simp)
          · rintro ⟨h1, h2⟩
            exact absurd (Ratio.lt_le_absurd _ _ hhi h2) not_false
        | false =>
          rw [hhi] at heq
          simp only [Bool.false_eq_true, if_false] at heq
          refine ⟨?_, fun hlo2 => by simp [hlo] at hlo2,
            fun hhi2 => by simp [hhi] at hhi2⟩
          rw [heq]
          simp only [true_iff]
          exact ⟨(Ratio.lt_false_iff_le _ _).mp hlo,
            (Ratio.lt_false_iff_le _ _).mp hhi⟩
  · intro s t hlen htgt
    have hsrcpos : 0 < jsLength (jsTrimList (extractText s).data) := by omega
    have htgtpos : 0 < jsLength (jsTrimList (extractText t).data) :=
      jsLength_pos _ htgt
    cases hc : hasCJK (jsTrimList (extractText s).data ++
        jsTrimList (extractText t).data) with
    | true =>
      have e1 : validateChunkParsed s t defaultChunkMin defaultChunkMax =
          (if Ratio.lt ⟨jsLength (jsTrimList (extractText t).data),
              jsLength (jsTrimList (extractText s).data)⟩ ⟨1, 10⟩ = true then
            ⟨false, .tooShort ⟨jsLength (jsTrimList (extractText t).data),
              jsLength (jsTrimList (extractText s).data)⟩⟩
          else if Ratio.lt ⟨8, 1⟩
              ⟨jsLength (jsTrimList (extractText t).data),
                jsLength (jsTrimList (extractText s).data)⟩ = true then
            ⟨false, .tooLong ⟨jsLength (jsTrimList (extractText t).data),
              jsLength (jsTrimList (extractText s).data)⟩⟩
          else structuralCheck s t) := by
        simp only [validateChunkParsed]
        rw [if_neg (by omega)]
        simp only [hc, eq_self_iff_true, if_true]
        rw [if_pos (show jsLength (jsTrimList (extractText s).data) > 0 from
            hsrcpos)]
        rw [if_congr (show (jsLength (jsTrimList (extractText s).data) > 5 ∧
            Ratio.lt ⟨jsLength (jsTrimList (extractText t).data),
              jsLength (jsTrimList (extractText s).data)⟩ ⟨1, 10⟩ = true) ↔
            (Ratio.lt ⟨jsLength (jsTrimList (extractText t).data),
              jsLength (jsTrimList (extractText s).data)⟩ ⟨1, 10⟩ = true)
            from ⟨fun h => h.2, fun h => ⟨hlen, h⟩⟩) rfl rfl]
        rw [if_congr (show (jsLength (jsTrimList (extractText s).data) > 5 ∧
            Ratio.lt ⟨8, 1⟩ ⟨jsLength (jsTrimList (extractText t).data),
              jsLength (jsTrimList (extractText s).data)⟩ = true) ↔
            (Ratio.lt ⟨8, 1⟩ ⟨jsLength (jsTrimList (extractText t).data),
              jsLength (jsTrimList (extractText s).data)⟩ = true)
            from ⟨fun h => h.2, fun h => ⟨hlen, h⟩⟩) rfl rfl]
      refine ⟨fun hlo => ?_, fun hhi => ?_, fun hlo hhi => ?_⟩
      · simp only [eq_self_iff_true, if_true] at hlo
        rw [e1, if_pos hlo]
      · simp only [eq_self_iff_true, if_true] at hhi
        have hlo : Ratio.lt ⟨jsLength (jsTrimList (extractText t).data),
            jsLength (jsTrimList (extractText s).data)⟩ ⟨1, 10⟩ = false := by
          cases h2 : Ratio.lt ⟨jsLength (jsTrimList (extractText t).data),
              jsLength (jsTrimList (extractText s).data)⟩ ⟨1, 10⟩ with
          | false => rfl
          | true => exact absurd (Ratio.lt_lt_absurd_cjk _ h2 hhi) not_false
        rw [e1, if_neg (by simp [hlo]), if_pos hhi]
      · simp only [eq_self_iff_true, if_true] at hlo hhi
        rw [e1, if_neg (by simp [hlo]), if_neg (by simp [hhi])]
    | false =>
      have e1 : validateChunkParsed s t defaultChunkMin defaultChunkMax =
          (if Ratio.lt ⟨jsLength (jsTrimList (extractText t).data),
              jsLength (jsTrimList (extractText s).data)⟩ ⟨4, 10⟩ = true then
            ⟨false, .tooShort ⟨jsLength (jsTrimList (extractText t).data),
              jsLength (jsTrimList (extractText s).data)⟩⟩
          else if Ratio.lt ⟨25, 10⟩
              ⟨jsLength (jsTrimList (extractText t).data),
                jsLength (jsTrimList (extractText s).data)⟩ = true then
            ⟨false, .tooLong ⟨jsLength (jsTrimList (extractText t).data),
              jsLength (jsTrimList (extractText s).data)⟩⟩
          else structuralCheck s t) := by
        simp only [validateChunkParsed]
        rw [if_neg (by omega)]
        simp only [hc, Bool.false_eq_true, if_false]
        rw [if_pos (show jsLength (jsTrimList (extractText s).data) > 0 from
            hsrcpos)]
        rw [if_congr (show (jsLength (jsTrimList (extractText s).data) > 5 ∧
            Ratio.lt ⟨jsLength (jsTrimList (extractText t).data),
              jsLength (jsTrimList (extractText s).data)⟩ defaultChunkMin =
              true) ↔
            (Ratio.lt ⟨jsLength (jsTrimList (extractText t).data),
              jsLength (jsTrimList (extractText s).data)⟩ ⟨4, 10⟩ = true)
            from ⟨fun h => h.2, fun h => ⟨hlen, h⟩⟩) rfl rfl]
        rw [if_congr (show (jsLength (jsTrimList (extractText s).data) > 5 ∧
            Ratio.lt defaultChunkMax
              ⟨jsLength (jsTrimList (extractText t).data),
                jsLength (jsTrimList (extractText s).data)⟩ = true) ↔
            (Ratio.lt ⟨25, 10⟩ ⟨jsLength (jsTrimList (extractText t).data),
              jsLength (jsTrimList (extractText s).data)⟩ = true)
            from ⟨fun h => h.2, fun h => ⟨hlen, h⟩⟩) rfl rfl]
      refine ⟨fun hlo => ?_, fun hhi => ?_, fun hlo hhi => ?_⟩
      · simp only [Bool.false_eq_true, if_false] at hlo
        rw [e1, if_pos hlo]
      · simp only [Bool.false_eq_true, if_false] at hhi
        have hlo : Ratio.lt ⟨jsLength (jsTrimList (extractText t).data),
            jsLength (jsTrimList (extractText s).data)⟩ ⟨4, 10⟩ = false := by
          cases h2 : Ratio.lt ⟨jsLength (jsTrimList (extractText t).data),
              jsLength (jsTrimList (extractText s).data)⟩ ⟨4, 10⟩ with
          | false => rfl
          | true => exact absurd (Ratio.lt_lt_absurd_chunk _ h2 hhi) not_false
        rw [e1, if_neg (by simp [hlo]), if_pos hhi]
      · simp only [Bool.false_eq_true, if_false] at hlo hhi
        rw [e1, if_neg (by simp [hlo]), if_neg (by simp [hhi])]

/-- Witness for C1 amended: `"hello world" → "bonjour tout le monde"`
(ratio 21/11, inside `[0.3, 5.0]`) is accepted by the safety check, and a
tree pair with ratio 3 is rejected as too long by the chunk validator. -/
theorem C1_witness :
    ((validateTranslationSafety (some "hello world")
        (some "bonjour tout le monde") defaultSafetyOptions).isValid = true ↔
      (Ratio.le
          (if hasCJK (jsTrimList "hello world".data ++
              jsTrimList "bonjour tout le monde".data)
           then ⟨1, 10⟩ else ⟨3, 10⟩)
          ⟨jsLength (jsTrimList "bonjour tout le monde".data),
            jsLength (jsTrimList "hello world".data)⟩ = true ∧
       Ratio.le
          ⟨jsLength (jsTrimList "bonjour tout le monde".data),
            jsLength (jsTrimList "hello world".data)⟩
          (if hasCJK (jsTrimList "hello world".data ++
              jsTrimList "bonjour tout le monde".data)
           then ⟨8, 1⟩ else ⟨5, 1⟩) = true)) ∧
    validateChunkParsed (textNode "stardust")
        (textNode "abcdefghijklmnopqrstuvwx")
        defaultChunkMin defaultChunkMax =
      ⟨false, .tooLong ⟨jsLength (jsTrimList (extractText
          (textNode "abcdefghijklmnopqrstuvwx")).data),
        jsLength (jsTrimList (extractText (textNode "stardust")).data)⟩⟩ :=
  ⟨(C1_ratio_policy_amended.1 "hello world" "bonjour tout le monde"
      (by decide) (by decide) (by decide)).1,
    (C1_ratio_policy_amended.2 (textNode "stardust")
        (textNode "abcdefghijklmnopqrstuvwx")
        (by decide) (by decide)).2.1 (by decide)⟩

/-! # Claim C2: structural tag parity -/

theorem findCountMismatch_eq_none_iff {α : Type} [DecidableEq α]
    (src tgt : List (α × Nat)) :
    findCountMismatch src tgt = none ↔
      ∀ p ∈ src, lookupCount tgt p.1 = p.2 := by
  induction src with
  | nil => simp [findCountMismatch]
  | cons p rest ih =>
    obtain ⟨k, c⟩ := p
    simp only [findCountMismatch]
    by_cases h : c ≠ lookupCount tgt k
    · rw [if_pos h, List.forall_mem_cons]
      constructor
      · intro hfalse
        exact (Option.some_ne_none _ hfalse).elim
      · rintro ⟨h1, _⟩
        exact absurd h1.symm h
    · rw [if_neg h, ih, List.forall_mem_cons]
      push_neg at h
      constructor
      · intro hall
        exact ⟨h.symm, hall⟩
      · rintro ⟨_, h2⟩
        exact h2

theorem findCountMismatch_some {α : Type} [DecidableEq α]
    (src tgt : List (α × Nat)) (k : α) (e g : Nat)
    (h : findCountMismatch src tgt = some (k, e, g)) :
    (k, e) ∈ src ∧ lookupCount tgt k = g ∧ e ≠ g := by
  induction src with
  | nil => simp [findCountMismatch] at h
  | cons p rest ih =>
    obtain ⟨k', c'⟩ := p
    simp only [findCountMismatch] at h
    by_cases hm : c' ≠ lookupCount tgt k'
    · rw [if_pos hm] at h
      simp only [Option.some_inj, Prod.mk.injEq] at h
      obtain ⟨h1, h2, h3⟩ := h
      subst h1
      subst h2
      subst h3
      exact ⟨List.mem_cons_self _ _, rfl, hm⟩
    · rw [if_neg hm] at h
      obtain ⟨h1, h2, h3⟩ := ih h
      exact ⟨List.mem_cons_of_mem _ h1, h2, h3⟩

theorem isNone_iff_not_isSome {β : Type} (o : Option β) :
    o.isNone = true ↔ ¬ o.isSome = true := by
  cases o <;> simp

theorem findHallucinated_eq_none_iff {α : Type} [DecidableEq α]
    (tgt src : List (α × Nat)) :
    findHallucinated tgt src = none ↔
      ∀ p ∈ tgt, (List.lookup p.1 src).isSome := by
  induction tgt with
  | nil => simp [findHallucinated]
  | cons p rest ih =>
    obtain ⟨k, c⟩ := p
    simp only [findHallucinated]
    by_cases h : (List.lookup k src).isNone
    · rw [if_pos h]
      constructor
      · intro hfalse
        exact (Option.some_ne_none _ hfalse).elim
      · intro hall
        have hk := hall (k, c) (List.mem_cons_self _ _)
        exact absurd hk ((isNone_iff_not_isSome _).mp h)
    · rw [if_neg h, ih, List.forall_mem_cons]
      have hs : (List.lookup k src).isSome := by
        cases hl : List.lookup k src with
        | none => exact absurd (by rw [hl]; rfl) h
        | some v => rfl
      constructor
      · intro h2
        exact ⟨hs, h2⟩
      · rintro ⟨_, h2⟩
        exact h2

theorem findHallucinated_some {α : Type} [DecidableEq α]
    (tgt src : List (α × Nat)) (k : α) (c : Nat)
    (h : findHallucinated tgt src = some (k, c)) :
    (k, c) ∈ tgt ∧ List.lookup k src = none := by
  induction tgt with
  | nil => simp [findHallucinated] at h
  | cons p rest ih =>
    obtain ⟨k', c'⟩ := p
    simp only [findHallucinated] at h
    by_cases hm : (List.lookup k' src).isNone
    · rw [if_pos hm] at h
      simp only [Option.some_inj, Prod.mk.injEq] at h
      obtain ⟨h1, h2⟩ := h
      subst h1
      subst h2
      exact ⟨List.mem_cons_self _ _, Option.isNone_iff_eq_none.mp hm⟩
    · rw [if_neg hm] at h
      obtain ⟨h1, h2⟩ := ih h
      exact ⟨List.mem_cons_of_mem _ h1, h2⟩

theorem tagMismatchExists_iff (s t : Node) :
    tagMismatchExists s t = true ↔
      ¬ findCountMismatch (countTags s) (countTags t) = none := by
  rw [findCountMismatch_eq_none_iff]
  push_neg
  simp only [tagMismatchExists, List.any_eq_true, Bool.not_eq_true',
    beq_eq_false_iff_ne, ne_eq]

theorem hallucinatedTagExists_iff (s t : Node) :
    hallucinatedTagExists s t = true ↔
      ¬ findHallucinated (countTags t) (countTags s) = none := by
  rw [findHallucinated_eq_none_iff]
  push_neg
  simp only [hallucinatedTagExists, List.any_eq_true]
  constructor
  · rintro ⟨p, hmem, hnone⟩
    exact ⟨p, hmem, (isNone_iff_not_isSome _).mp hnone⟩
  · rintro ⟨p, hmem, hns⟩
    exact ⟨p, hmem, (isNone_iff_not_isSome _).mpr hns⟩

/-- C2 counterexample.  Translating `<div><p>a</p></div>` into
`<div><span>a</span></div>` replaces `p` by `span`: `span` is present in
the target and absent from the source, so the claim requires an invalid
result naming the hallucinated `span`; the validator however reports the
source-side count loop first and returns "tag mismatch for `<p>`"
(expected 1, got 0), never the hallucinated-tag reason. -/
theorem C2_counterexample :
    validateChunkParsed (tagNode "div" [] [tagNode "p" [] [textNode "a"]])
        (tagNode "div" [] [tagNode "span" [] [textNode "a"]])
        defaultChunkMin defaultChunkMax =
      ⟨false, .tagMismatch "p" 1 0⟩ ∧
    ("span", 1) ∈ countTags (tagNode "div" [] [tagNode "span" [] [textNode "a"]]) ∧
    List.lookup "span"
      (countTags (tagNode "div" [] [tagNode "p" [] [textNode "a"]])) = none ∧
    (∀ tag c,
      validateChunkParsed (tagNode "div" [] [tagNode "p" [] [textNode "a"]])
          (tagNode "div" [] [tagNode "span" [] [textNode "a"]])
          defaultChunkMin defaultChunkMax ≠
        ⟨false, .hallucinatedTag tag c⟩) := by
  refine ⟨by rfl, by decide, by decide, ?_⟩
  intro tag c h
  rw [show validateChunkParsed (tagNode "div" [] [tagNode "p" [] [textNode "a"]])
      (tagNode "div" [] [tagNode "span" [] [textNode "a"]])
      defaultChunkMin defaultChunkMax = ⟨false, .tagMismatch "p" 1 0⟩
    from rfl] at h
  simp at h

/-- C2 amended.  The structural check counts tag occurrences by lowercased
name in both trees.  Whenever some source tag name has a different count
in the target, the result is invalid with a tag-mismatch reason naming
such a tag with its two counts.  Whenever every source tag name has equal
counts but some target tag name is absent from the source, the result is
invalid naming that hallucinated tag (so a `span` replacing a `p` yields
the `p` tag-mismatch reason, not the hallucination reason, because the
source-side loop runs first).  When the tag multisets agree in both
directions the check proceeds to the attribute comparison. -/
theorem C2_tag_parity_amended (s t : Node) :
    (tagMismatchExists s t = true →
      ∃ tag e g, structuralCheck s t = ⟨false, .tagMismatch tag e g⟩ ∧
        (tag, e) ∈ countTags s ∧ lookupCount (countTags t) tag = g ∧ e ≠ g) ∧
    (tagMismatchExists s t = false → hallucinatedTagExists s t = true →
      ∃ tag c, structuralCheck s t = ⟨false, .hallucinatedTag tag c⟩ ∧
        (tag, c) ∈ countTags t ∧ List.lookup tag (countTags s) = none) ∧
    (tagMismatchExists s t = false → hallucinatedTagExists s t = false →
      structuralCheck s t = attrParityCheck s t) := by
  refine ⟨?_, ?_, ?_⟩
  · intro hmm
    have hne := (tagMismatchExists_iff s t).mp hmm
    cases hfind : findCountMismatch (countTags s) (countTags t) with
    | none => exact absurd hfind hne
    | some trip =>
      obtain ⟨tag, e, g⟩ := trip
      obtain ⟨h1, h2, h3⟩ := findCountMismatch_some _ _ _ _ _ hfind
      refine ⟨tag, e, g, ?_, h1, h2, h3⟩
      simp only [structuralCheck, hfind]
  · intro hmm hhal
    have hnone : findCountMismatch (countTags s) (countTags t) = none := by
      by_contra hne
      exact absurd ((tagMismatchExists_iff s t).mpr hne) (by simp [hmm])
    have hne := (hallucinatedTagExists_iff s t).mp hhal
    cases hfind : findHallucinated (countTags t) (countTags s) with
    | none => exact absurd hfind hne
    | some pr =>
      obtain ⟨tag, c⟩ := pr
      obtain ⟨h1, h2⟩ := findHallucinated_some _ _ _ _ hfind
      refine ⟨tag, c, ?_, h1, h2⟩
      simp only [structuralCheck, hnone, hfind]
  · intro hmm hhal
    have hnone : findCountMismatch (countTags s) (countTags t) = none := by
      by_contra hne
      exact absurd ((tagMismatchExists_iff s t).mpr hne) (by simp [hmm])
    have hnone2 : findHallucinated (countTags t) (countTags s) = none := by
      by_contra hne
      exact absurd ((hallucinatedTagExists_iff s t).mpr hne) (by simp [hhal])
    simp only [structuralCheck, hnone, hnone2]

/-- Witness for C2 amended: the extra-`p` example yields a tag-mismatch
result, and a pure addition of a `span` tag (with all source counts
matching) yields a hallucinated-tag result. -/
theorem C2_witness :
    (∃ tag e g,
      structuralCheck (tagNode "div" [] [tagNode "p" [] [textNode "a"]])
          (tagNode "div" [] [tagNode "p" [] [textNode "a"],
            tagNode "p" [] [textNode "b"]]) =
        ⟨false, .tagMismatch tag e g⟩ ∧
      (tag, e) ∈ countTags (tagNode "div" [] [tagNode "p" [] [textNode "a"]]) ∧
      lookupCount (countTags (tagNode "div" [] [tagNode "p" [] [textNode "a"],
        tagNode "p" [] [textNode "b"]])) tag = g ∧ e ≠ g) ∧
    (∃ tag c,
      structuralCheck (tagNode "div" [] [textNode "a"])
          (tagNode "div" [] [textNode "a", tagNode "span" [] [textNode "b"]]) =
        ⟨false, .hallucinatedTag tag c⟩ ∧
      (tag, c) ∈ countTags (tagNode "div" [] [textNode "a",
        tagNode "span" [] [textNode "b"]]) ∧
      List.lookup tag (countTags (tagNode "div" [] [textNode "a"])) = none) :=
  ⟨(C2_tag_parity_amended (tagNode "div" [] [tagNode "p" [] [textNode "a"]])
      (tagNode "div" [] [tagNode "p" [] [textNode "a"],
        tagNode "p" [] [textNode "b"]])).1 (by decide),
    (C2_tag_parity_amended (tagNode "div" [] [textNode "a"])
      (tagNode "div" [] [textNode "a",
        tagNode "span" [] [textNode "b"]])).2.1 (by decide) (by decide)⟩

/-! # Claim C4: the tree classifier -/

theorem hasTextContentList_eq_any (cs : List Node) :
    hasTextContentList cs = cs.any hasTextContent := by
  induction cs with
  | nil => rfl
  | cons c rest ih => simp [hasTextContentList, ih]

theorem wellFormedList_eq_all (cs : List Node) :
    wellFormedList cs = cs.all wellFormed := by
  induction cs with
  | nil => rfl
  | cons c rest ih => simp [wellFormedList, ih]

theorem attrFreeList_eq_all (cs : List Node) :
    attrFreeList cs = cs.all attrFreeSubtree := by
  induction cs with
  | nil => rfl
  | cons c rest ih => simp [attrFreeList, ih]

theorem container_not_skip (nm : String) (h : CONTAINER_BLOCKS nm = true) :
    SKIP_TAGS nm = false := by
  simp only [CONTAINER_BLOCKS, Bool.or_eq_true, beq_iff_eq, or_assoc] at h
  rcases h with h|h|h|h|h|h|h|h|h|h|h|h <;> subst h <;> decide

theorem container_not_semantic (nm : String) (h : CONTAINER_BLOCKS nm = true) :
    SEMANTIC_BLOCKS nm = false := by
  simp only [CONTAINER_BLOCKS, Bool.or_eq_true, beq_iff_eq, or_assoc] at h
  rcases h with h|h|h|h|h|h|h|h|h|h|h|h <;> subst h <;> decide

theorem hasText_of_direct (nm d : String) (ats : List (String × String))
    (cs : List Node)
    (h : hasDirectTextContent (Node.mk .tag nm d ats cs) = true) :
    hasTextContent (Node.mk .tag nm d ats cs) = true := by
  simp only [hasDirectTextContent, Node.children, List.any_eq_true] at h
  obtain ⟨c, hmem, hc⟩ := h
  obtain ⟨kc, nmc, dc, atsc, csc⟩ := c
  simp only [Node.kind, Node.data, Bool.and_eq_true, beq_iff_eq] at hc
  obtain ⟨hkc, hne⟩ := hc
  subst hkc
  have hcte : hasTextContent (Node.mk .text nmc dc atsc csc) = true := by
    simp only [hasTextContent, if_pos rfl]
    exact hne
  have : hasTextContent (Node.mk .tag nm d ats cs) = hasTextContentList cs := by
    simp [hasTextContent]
  rw [this, hasTextContentList_eq_any]
  exact List.any_eq_true.mpr ⟨_, hmem, hcte⟩

theorem isBlockNode_false_of (k : NKind) (nm d : String)
    (ats : List (String × String)) (cs : List Node)
    (hattr : hasTranslatableAttributes (Node.mk k nm d ats cs) = false)
    (htext : hasTextContent (Node.mk k nm d ats cs) = false) :
    isBlockNode (Node.mk k nm d ats cs) = false := by
  simp only [isBlockNode, Node.kind, Node.name]
  by_cases hk : k = NKind.tag
  · rw [if_pos hk, hattr]
    simp only [Bool.false_eq_true, if_false]
    by_cases hsem : SEMANTIC_BLOCKS nm = true
    · rw [if_pos hsem]
      exact htext
    · rw [if_neg hsem]
      by_cases hcont : CONTAINER_BLOCKS nm = true
      · rw [if_pos hcont]
        subst hk
        by_cases hdir :
            hasDirectTextContent (Node.mk NKind.tag nm d ats cs) = true
        · exact absurd (hasText_of_direct nm d ats cs hdir) (by simp [htext])
        · simpa using hdir
      · rw [if_neg hcont]
  · rw [if_neg hk]

theorem findBlocksList_eq_nil (cs : List Node)
    (h : ∀ c ∈ cs, findTranslatableBlocks c = []) : findBlocksList cs = [] := by
  induction cs with
  | nil => rfl
  | cons c rest ih =>
    simp only [findBlocksList, h c (List.mem_cons_self _ _), List.nil_append]
    exact ih fun c hc => h c (List.mem_cons_of_mem _ hc)

/-- A subtree with no non-whitespace text anywhere, no translatable
attributes anywhere, and well-formed text nodes contributes no translation
units. -/
theorem findBlocks_nil_of_clean (n : Node) (hwf : wellFormed n = true)
    (htext : hasTextContent n = false) (hattr : attrFreeSubtree n = true) :
    findTranslatableBlocks n = [] := by
  induction n using Node.myInduction with
  | h k nm d ats cs ih =>
    simp only [wellFormed, Bool.and_eq_true] at hwf
    obtain ⟨hwf1, hwf2⟩ := hwf
    simp only [attrFreeSubtree, Bool.and_eq_true, Bool.not_eq_true'] at hattr
    obtain ⟨hattr1, hattr2⟩ := hattr
    simp only [findTranslatableBlocks]
    by_cases hskip : SKIP_TAGS nm = true
    · rw [if_pos hskip]
    · rw [if_neg (by simp [Bool.not_eq_true] at hskip; simp [hskip])]
      rw [if_neg (by
        simp [isBlockNode_false_of k nm d ats cs hattr1 htext])]
      by_cases hkind : k = NKind.text ∨ k = NKind.comment
      · have hcs : cs = [] := by
          rw [if_pos hkind] at hwf1
          exact List.isEmpty_iff.mp hwf1
        subst hcs
        rfl
      · have htextcs : hasTextContentList cs = false := by
          have : hasTextContent (Node.mk k nm d ats cs) =
              hasTextContentList cs := by
            have hknot : ¬ k = NKind.text := fun hh => hkind (Or.inl hh)
            simp [hasTextContent, hknot]
          rw [← this]
          exact htext
        apply findBlocksList_eq_nil
        intro c hc
        apply ih c hc
        · rw [wellFormedList_eq_all] at hwf2
          exact List.all_eq_true.mp hwf2 c hc
        · rw [hasTextContentList_eq_any] at htextcs
          have := List.any_eq_false.mp htextcs c hc
          simpa using this
        · rw [attrFreeList_eq_all] at hattr2
          exact List.all_eq_true.mp hattr2 c hc

/-- C4 counterexample.  The claim says a container-set element is selected
exactly when it has a direct non-whitespace text child.  A `div` with a
non-empty `title` attribute and no direct text is nevertheless selected
whole (the attribute override wins), and the inner `span` is not visited. -/
theorem C4_counterexample :
    CONTAINER_BLOCKS "div" = true ∧
    hasDirectTextContent (tagNode "div" [("title", "Hi")]
      [tagNode "span" [] [textNode "more"]]) = false ∧
    findTranslatableBlocks (tagNode "div" [("title", "Hi")]
        [tagNode "span" [] [textNode "more"]]) =
      [tagNode "div" [("title", "Hi")] [tagNode "span" [] [textNode "more"]]] := by
  refine ⟨by decide, by decide, by rfl⟩

/-- C4 amended.  A container-set element of kind tag that carries no
non-empty translatable attribute is selected exactly when it has a direct
non-whitespace text child, and when it is not selected the traversal
descends into its children; any node carrying a non-empty translatable
attribute is always selected (override).  A selected node is emitted alone
(the traversal does not descend into it).  A well-formed subtree with no
non-whitespace text and no translatable attributes anywhere yields zero
units (covering the empty `<p></p>`).  A skip-set name yields zero units
regardless of content. -/
theorem C4_classifier_amended :
    (∀ (nm d : String) (ats : List (String × String)) (cs : List Node),
      CONTAINER_BLOCKS nm = true →
      hasTranslatableAttributes (Node.mk .tag nm d ats cs) = false →
      (hasDirectTextContent (Node.mk .tag nm d ats cs) = true →
        findTranslatableBlocks (Node.mk .tag nm d ats cs) =
          [Node.mk .tag nm d ats cs]) ∧
      (hasDirectTextContent (Node.mk .tag nm d ats cs) = false →
        findTranslatableBlocks (Node.mk .tag nm d ats cs) =
          findBlocksList cs)) ∧
    (∀ (k : NKind) (nm d : String) (ats : List (String × String))
        (cs : List Node),
      SKIP_TAGS nm = false → isBlockNode (Node.mk k nm d ats cs) = true →
      findTranslatableBlocks (Node.mk k nm d ats cs) = [Node.mk k nm d ats cs]) ∧
    (∀ n : Node, wellFormed n = true → hasTextContent n = false →
      attrFreeSubtree n = true → findTranslatableBlocks n = []) ∧
    (∀ (k : NKind) (nm d : String) (ats : List (String × String))
        (cs : List Node),
      SKIP_TAGS nm = true →
      findTranslatableBlocks (Node.mk k nm d ats cs) = []) := by
  refine ⟨?_, ?_, findBlocks_nil_of_clean, ?_⟩
  · intro nm d ats cs hcont hattr
    have hskip := container_not_skip nm hcont
    have hsem := container_not_semantic nm hcont
    have hblock : isBlockNode (Node.mk .tag nm d ats cs) =
        hasDirectTextContent (Node.mk .tag nm d ats cs) := by
      simp only [isBlockNode, Node.kind, Node.name]
      rw [if_pos trivial, hattr]
      simp only [Bool.false_eq_true, if_false]
      rw [if_neg (by intro hcontra; rw [hsem] at hcontra; exact
        Bool.false_ne_true hcontra), if_pos hcont]
    constructor
    · intro hdir
      simp only [findTranslatableBlocks]
      rw [if_neg (by simp [hskip]), if_pos (by rw [hblock]; exact hdir)]
    · intro hdir
      simp only [findTranslatableBlocks]
      rw [if_neg (by simp [hskip]), if_neg (by rw [hblock]; simp [hdir])]
  · intro k nm d ats cs hskip hblock
    simp only [findTranslatableBlocks]
    rw [if_neg (by simp [hskip]), if_pos hblock]
  · intro k nm d ats cs hskip
    simp only [findTranslatableBlocks]
    rw [if_pos hskip]

/-- Witness for C4 amended: the spec's `<div>Text<span>more</span></div>`
yields exactly the `div`, the empty `<p></p>` yields no units, and a
`<script>` with content yields no units. -/
theorem C4_witness :
    findTranslatableBlocks (tagNode "div" []
        [textNode "Text", tagNode "span" [] [textNode "more"]]) =
      [tagNode "div" [] [textNode "Text", tagNode "span" [] [textNode "more"]]] ∧
    findTranslatableBlocks (tagNode "p" [] []) = [] ∧
    findTranslatableBlocks (tagNode "script" []
      [textNode "console.log(1)"]) = [] :=
  ⟨(C4_classifier_amended.1 "div" "" []
      [textNode "Text", tagNode "span" [] [textNode "more"]]
      (by decide) (by decide)).1 (by decide),
    C4_classifier_amended.2.2.1 (tagNode "p" [] [])
      (by decide) (by decide) (by decide),
    C4_classifier_amended.2.2.2 .tag "script" "" [] [textNode "console.log(1)"]
      (by decide)⟩

/-! # Claim C6: payload chunk indices -/

theorem strData_append (a b : String) : (a ++ b).data = a.data ++ b.data := by
  cases a
  cases b
  rfl

theorem prepareAux_mapping (bs : List Node) (i : Nat) :
    (prepareAux i bs).2 =
      (List.enumFrom i bs).filterMap fun p =>
        if jsTrimList (blockFragment p.2).data = [] then none
        else some ⟨p.1, p.2, blockFragment p.2⟩ := by
  induction bs generalizing i with
  | nil => rfl
  | cons b rest ih =>
    simp only [prepareAux, List.enumFrom, List.filterMap_cons]
    by_cases h : jsTrimList (blockFragment b).data = []
    · rw [if_pos h]
      simp only [if_pos h]
      exact ih (i + 1)
    · rw [if_neg h]
      simp only [if_neg h]
      rw [ih (i + 1)]

theorem prepareAux_payload_data (bs : List Node) (i : Nat) :
    (prepareAux i bs).1.data =
      (List.map (fun e => chunkWrapL e.index e.originalHtml.data)
        (prepareAux i bs).2).flatten := by
  induction bs generalizing i with
  | nil => rfl
  | cons b rest ih =>
    simp only [prepareAux]
    by_cases h : jsTrimList (blockFragment b).data = []
    · rw [if_pos h]
      exact ih (i + 1)
    · rw [if_neg h]
      simp only [List.map_cons, List.flatten_cons]
      rw [strData_append, ih (i + 1)]

theorem prepareAux_index_ge (bs : List Node) (i : Nat) (e : MapEntry)
    (h : e ∈ (prepareAux i bs).2) : i ≤ e.index := by
  induction bs generalizing i with
  | nil => exact absurd h (by simp [prepareAux])
  | cons b rest ih =>
    simp only [prepareAux] at h
    by_cases hb : jsTrimList (blockFragment b).data = []
    · rw [if_pos hb] at h
      have := ih (i + 1) h
      omega
    · rw [if_neg hb] at h
      cases h with
      | head => rfl
      | tail _ hmem =>
        have := ih (i + 1) hmem
        omega

theorem prepareAux_pairwise (bs : List Node) (i : Nat) :
    List.Pairwise (fun a b => a.index < b.index) (prepareAux i bs).2 := by
  induction bs generalizing i with
  | nil => exact List.Pairwise.nil
  | cons b rest ih =>
    simp only [prepareAux]
    by_cases hb : jsTrimList (blockFragment b).data = []
    · rw [if_pos hb]
      exact ih (i + 1)
    · rw [if_neg hb]
      refine List.Pairwise.cons ?_ (ih (i + 1))
      intro e hmem
      have := prepareAux_index_ge rest (i + 1) e hmem
      simp only [MapEntry.index]
      omega

theorem filterMap_all_some {α β : Type} (f : α → Option β) (g : α → β)
    (l : List α) (h : ∀ a ∈ l, f a = some (g a)) : l.filterMap f = l.map g := by
  induction l with
  | nil => rfl
  | cons a rest ih =>
    rw [List.filterMap_cons, h a (List.mem_cons_self _ _), List.map_cons]
    rw [ih fun x hx => h x (List.mem_cons_of_mem _ hx)]

theorem mem_of_mem_enumFrom {α : Type} (p : Nat × α) (n : Nat) (l : List α)
    (h : p ∈ List.enumFrom n l) : p.2 ∈ l := by
  induction l generalizing n with
  | nil => exact absurd h (by simp)
  | cons a rest ih =>
    simp only [List.enumFrom] at h
    cases h with
    | head => exact List.mem_cons_self _ _
    | tail _ hmem => exact List.mem_cons_of_mem _ (ih (n + 1) hmem)

/-- C6 counterexample.  Three blocks whose middle fragment is
whitespace-only produce mapping (and payload) chunk ids `[0, 2]`: the
skipped block's index is not reused, so the emitted indices are not the
contiguous `0, 1, …, k-1` the claim requires (`k = 2` here). -/
theorem C6_counterexample :
    ((prepareTranslationPayload [tagNode "p" [] [textNode "A"],
        tagNode "p" [] [textNode "   "],
        tagNode "p" [] [textNode "B"]]).2.map MapEntry.index = [0, 2]) ∧
    (prepareTranslationPayload [tagNode "p" [] [textNode "A"],
        tagNode "p" [] [textNode "   "],
        tagNode "p" [] [textNode "B"]]).1 =
      "<chunk id=\"0\">\nA\n</chunk>\n<chunk id=\"2\">\nB\n</chunk>\n" ∧
    [0, 2] ≠ [0, 1] := by
  refine ⟨by rfl, by rfl, by decide⟩

/-- C6 amended.  The chunk index recorded for a block (in the payload and
in the mapping) is its 0-based position in the input list; a block whose
fragment trims to empty is omitted from both payload and mapping without
renumbering, so indices are strictly increasing but need not be
contiguous; when every fragment is non-empty the mapping's index sequence
is exactly `0, 1, …, N-1`. -/
theorem C6_payload_indices_amended (blocks : List Node) :
    (prepareTranslationPayload blocks).2 =
      ((List.enumFrom 0 blocks).filterMap fun p =>
        if jsTrimList (blockFragment p.2).data = [] then none
        else some ⟨p.1, p.2, blockFragment p.2⟩) ∧
    (prepareTranslationPayload blocks).1.data =
      (List.map (fun e => chunkWrapL e.index e.originalHtml.data)
        (prepareTranslationPayload blocks).2).flatten ∧
    List.Pairwise (fun a b => a.index < b.index)
      (prepareTranslationPayload blocks).2 ∧
    ((∀ b ∈ blocks, jsTrimList (blockFragment b).data ≠ []) →
      (prepareTranslationPayload blocks).2.map MapEntry.index =
        List.range blocks.length) := by
  refine ⟨prepareAux_mapping blocks 0, prepareAux_payload_data blocks 0,
    prepareAux_pairwise blocks 0, ?_⟩
  intro hne
  rw [show (prepareTranslationPayload blocks).2 = (prepareAux 0 blocks).2
    from rfl]
  rw [prepareAux_mapping blocks 0]
  rw [filterMap_all_some _
    (fun p => (⟨p.1, p.2, blockFragment p.2⟩ : MapEntry)) _ ?hsome]
  · rw [List.map_map]
    have : (MapEntry.index ∘ fun p : Nat × Node =>
        (⟨p.1, p.2, blockFragment p.2⟩ : MapEntry)) = Prod.fst := by
      funext p
      rfl
    rw [this, List.enumFrom_map_fst, List.range_eq_range']
  · intro p hp
    rw [if_neg (hne p.2 (mem_of_mem_enumFrom p 0 blocks hp))]

/-- Witness for C6 amended: with two non-empty fragments the mapping ids
are exactly `range 2 = [0, 1]`. -/
theorem C6_witness :
    (prepareTranslationPayload [tagNode "p" [] [textNode "A"],
        tagNode "h1" [] [textNode "B"]]).2.map MapEntry.index =
      List.range [tagNode "p" [] [textNode "A"],
        tagNode "h1" [] [textNode "B"]].length :=
  (C6_payload_indices_amended [tagNode "p" [] [textNode "A"],
      tagNode "h1" [] [textNode "B"]]).2.2.2 (by decide)

/-! # Claim C3: attribute restoration -/

/-- The specification of `restoreNode` on one node, used as the induction
motive: consuming exactly the flattened tag count from the source list,
preserving tag names, and merging attributes positionally. -/
def RestoreSpec (c : Node) : Prop :=
  ∀ srcs : List Node,
    (getFlatTags c).length ≤ srcs.length →
    (restoreNode c srcs).2 = srcs.drop (getFlatTags c).length ∧
    (getFlatTags (restoreNode c srcs).1).map Node.name =
      (getFlatTags c).map Node.name ∧
    (getFlatTags (restoreNode c srcs).1).map Node.attribs =
      List.zipWith (fun sTag tTag => mergeAttribs sTag.attribs tTag.attribs)
        (srcs.take (getFlatTags c).length) (getFlatTags c)

theorem getFlatTagsList_cons (c : Node) (cs : List Node) :
    getFlatTagsList (c :: cs) = getFlatTags c ++ getFlatTagsList cs := rfl

theorem restoreList_spec (cs : List Node) (hnode : ∀ c ∈ cs, RestoreSpec c) :
    ∀ srcs : List Node,
      (getFlatTagsList cs).length ≤ srcs.length →
      (restoreList cs srcs).2 = srcs.drop (getFlatTagsList cs).length ∧
      (getFlatTagsList (restoreList cs srcs).1).map Node.name =
        (getFlatTagsList cs).map Node.name ∧
      (getFlatTagsList (restoreList cs srcs).1).map Node.attribs =
        List.zipWith (fun sTag tTag => mergeAttribs sTag.attribs tTag.attribs)
          (srcs.take (getFlatTagsList cs).length) (getFlatTagsList cs) := by
  induction cs with
  | nil =>
    intro srcs hlen
    exact ⟨rfl, rfl, rfl⟩
  | cons c rest ih =>
    intro srcs hlen
    rw [getFlatTagsList_cons] at hlen
    rw [List.length_append] at hlen
    have hc := hnode c (List.mem_cons_self _ _) srcs (by omega)
    obtain ⟨hc1, hc2, hc3⟩ := hc
    have hlen2 : (getFlatTagsList rest).length ≤
        (srcs.drop (getFlatTags c).length).length := by
      rw [List.length_drop]
      omega
    have hr := ih (fun x hx => hnode x (List.mem_cons_of_mem _ hx))
      (srcs.drop (getFlatTags c).length) hlen2
    obtain ⟨hr1, hr2, hr3⟩ := hr
    simp only [restoreList]
    rw [hc1]
    refine ⟨?_, ?_, ?_⟩
    · rw [hr1, List.drop_drop, getFlatTagsList_cons, List.length_append]
    · rw [getFlatTagsList_cons, getFlatTagsList_cons, List.map_append,
        List.map_append, hc2, hr2]
    · rw [getFlatTagsList_cons, getFlatTagsList_cons, List.map_append,
        List.length_append, List.take_add,
        List.zipWith_append _ _ _ _ _
          (by rw [List.length_take]; omega)]
      rw [hc3, hr3]

theorem restoreNode_spec (c : Node) : RestoreSpec c := by
  induction c using Node.myInduction with
  | h k nm d ats cs ih =>
    intro srcs hlen
    have hlist := restoreList_spec cs ih
    by_cases htag : k = NKind.tag ∨ k = NKind.script ∨ k = NKind.style
    · have hflat : getFlatTags (Node.mk k nm d ats cs) =
          Node.mk k nm d ats cs :: getFlatTagsList cs := by
        simp only [getFlatTags, if_pos htag, List.singleton_append]
      rw [hflat] at hlen
      rw [List.length_cons] at hlen
      cases srcs with
      | nil => simp at hlen
      | cons sTag rest =>
        have hr := hlist rest (by rw [List.length_cons] at hlen; omega)
        obtain ⟨hr1, hr2, hr3⟩ := hr
        simp only [restoreNode, if_pos htag]
        have hflat2 : getFlatTags (Node.mk k nm d
            (mergeAttribs sTag.attribs ats) (restoreList cs rest).1) =
            Node.mk k nm d (mergeAttribs sTag.attribs ats)
              (restoreList cs rest).1 ::
              getFlatTagsList (restoreList cs rest).1 := by
          simp only [getFlatTags, if_pos htag, List.singleton_append]
        refine ⟨?_, ?_, ?_⟩
        · rw [hr1, hflat, List.length_cons, List.drop_succ_cons]
        · rw [hflat2, hflat, List.map_cons, List.map_cons, hr2]
          rfl
        · rw [hflat2, hflat]
          simp only [List.map_cons, List.length_cons, List.take_succ_cons,
            List.zipWith_cons_cons]
          rw [hr3]
          rfl
    · have hflat : getFlatTags (Node.mk k nm d ats cs) =
          getFlatTagsList cs := by
        simp only [getFlatTags, if_neg htag, List.nil_append]
      rw [hflat] at hlen
      have hr := hlist srcs hlen
      obtain ⟨hr1, hr2, hr3⟩ := hr
      simp only [restoreNode, if_neg htag]
      have hflat2 : ∀ cs2 : List Node, getFlatTags (Node.mk k nm d ats cs2) =
          getFlatTagsList cs2 := by
        intro cs2
        simp only [getFlatTags, if_neg htag, List.nil_append]
      rw [hflat, hflat2]
      exact ⟨hr1, hr2, hr3⟩

/-- C3.  `restoreAttributes` returns the translated tree completely
unchanged when the flattened tag-name sequences of the two parses differ
(in length or at any position); otherwise every aligned tag pair gets the
source attributes overwritten with the translated values of exactly the
allow-listed names present on the translated tag, so a non-allow-listed
attribute always takes the source value, an allow-listed attribute present
in the translation keeps the translated value, and an allow-listed
attribute the model dropped falls back to the source value. -/
theorem C3_restore_attributes (s t : Node) :
    ((getFlatTags s).map Node.name ≠ (getFlatTags t).map Node.name →
      restoreAttributes s t = t) ∧
    ((getFlatTags s).map Node.name = (getFlatTags t).map Node.name →
      (getFlatTags (restoreAttributes s t)).map Node.name =
        (getFlatTags t).map Node.name ∧
      (getFlatTags (restoreAttributes s t)).map Node.attribs =
        List.zipWith (fun sTag tTag => mergeAttribs sTag.attribs tTag.attribs)
          (getFlatTags s) (getFlatTags t)) ∧
    (∀ (base tr : List (String × String)) (a : String),
      List.lookup a (mergeAttribs base tr) =
        if a ∈ TRANSLATABLE_ATTRS then
          match List.lookup a tr with
          | some v => some v
          | none => List.lookup a base
        else List.lookup a base) := by
  refine ⟨?_, ?_, fun base tr a => mergeAttribs_lookup base tr a⟩
  · intro hne
    simp only [restoreAttributes]
    rw [if_neg hne]
  · intro heq
    have hlen : (getFlatTags t).length ≤ (getFlatTags s).length := by
      have := congrArg List.length heq
      rw [List.length_map, List.length_map] at this
      omega
    have hspec := restoreNode_spec t (getFlatTags s) hlen
    obtain ⟨h1, h2, h3⟩ := hspec
    have hres : restoreAttributes s t = (restoreNode t (getFlatTags s)).1 := by
      simp only [restoreAttributes]
      rw [if_pos heq]
    rw [hres, h2, h3]
    have hlens : (getFlatTags s).length = (getFlatTags t).length := by
      have := congrArg List.length heq
      rw [List.length_map, List.length_map] at this
      omega
    rw [← hlens, List.take_length]
    exact ⟨rfl, rfl⟩

/-- Witness for C3: the spec example — source
`<a href="/x" class="c">t</a>`, translated
`<a href="/y" class="d" aria-label="L">t</a>` — aligns, and the restored
attributes are the merge: `href="/x"`, `class="c"`, `aria-label="L"`. -/
theorem C3_witness :
    (getFlatTags (restoreAttributes
        (rootNode [tagNode "a" [("href", "/x"), ("class", "c")] [textNode "t"]])
        (rootNode [tagNode "a" [("href", "/y"), ("class", "d"),
          ("aria-label", "L")] [textNode "t"]]))).map Node.name =
      (getFlatTags (rootNode [tagNode "a" [("href", "/y"), ("class", "d"),
        ("aria-label", "L")] [textNode "t"]])).map Node.name ∧
    (getFlatTags (restoreAttributes
        (rootNode [tagNode "a" [("href", "/x"), ("class", "c")] [textNode "t"]])
        (rootNode [tagNode "a" [("href", "/y"), ("class", "d"),
          ("aria-label", "L")] [textNode "t"]]))).map Node.attribs =
      List.zipWith (fun sTag tTag => mergeAttribs sTag.attribs tTag.attribs)
        (getFlatTags (rootNode [tagNode "a" [("href", "/x"), ("class", "c")]
          [textNode "t"]]))
        (getFlatTags (rootNode [tagNode "a" [("href", "/y"), ("class", "d"),
          ("aria-label", "L")] [textNode "t"]])) :=
  (C3_restore_attributes
      (rootNode [tagNode "a" [("href", "/x"), ("class", "c")] [textNode "t"]])
      (rootNode [tagNode "a" [("href", "/y"), ("class", "d"),
        ("aria-label", "L")] [textNode "t"]])).2.1 (by rfl)

/-! # Claim C8: chunk-level retries and partial failure -/

theorem processBlockBatch_first_success
    (parse : String → Except String Node) (mapping : List MapEntry)
    (attempts : Nat → Except String String) :
    ∀ (k start retries : Nat) (v : List (Nat × String)),
      k ≤ retries →
      (∀ j < k, ∃ e, attemptOutcome parse mapping (attempts (start + j)) =
        .error e) →
      attemptOutcome parse mapping (attempts (start + k)) = .ok v →
      processBlockBatch parse mapping attempts start retries = .ok v := by
  intro k
  induction k with
  | zero =>
    intro start retries v hk hfail hok
    rw [Nat.add_zero] at hok
    unfold processBlockBatch
    rw [hok]
  | succ k ih =>
    intro start retries v hk hfail hok
    obtain ⟨e, he⟩ := hfail 0 (Nat.succ_pos k)
    rw [Nat.add_zero] at he
    unfold processBlockBatch
    rw [he]
    cases retries with
    | zero => omega
    | succ r =>
      refine ih (start + 1) r v (by omega) ?_ ?_
      · intro j hj
        obtain ⟨e2, he2⟩ := hfail (j + 1) (by omega)
        refine ⟨e2, ?_⟩
        rw [show start + 1 + j = start + (j + 1) from by omega]
        exact he2
      · rw [show start + 1 + k = start + (k + 1) from by omega]
        exact hok

theorem processBlockBatch_exhausted
    (parse : String → Except String Node) (mapping : List MapEntry)
    (attempts : Nat → Except String String) :
    ∀ (retries start : Nat),
      (∀ j, j ≤ retries → ∃ e,
        attemptOutcome parse mapping (attempts (start + j)) = .error e) →
      ∃ e, processBlockBatch parse mapping attempts start retries =
          .error e ∧
        attemptOutcome parse mapping (attempts (start + retries)) =
          .error e := by
  intro retries
  induction retries with
  | zero =>
    intro start hfail
    obtain ⟨e, he⟩ := hfail 0 (Nat.le_refl 0)
    rw [Nat.add_zero] at he
    refine ⟨e, ?_, by rw [Nat.add_zero]; exact he⟩
    unfold processBlockBatch
    rw [he]
  | succ r ih =>
    intro start hfail
    obtain ⟨e0, he0⟩ := hfail 0 (Nat.zero_le _)
    rw [Nat.add_zero] at he0
    obtain ⟨e, hrun, hlast⟩ := ih (start + 1) (fun j hj => by
      obtain ⟨e2, he2⟩ := hfail (j + 1) (by omega)
      refine ⟨e2, ?_⟩
      rw [show start + 1 + j = start + (j + 1) from by omega]
      exact he2)
    refine ⟨e, ?_, ?_⟩
    · unfold processBlockBatch
      rw [he0]
      exact hrun
    · rw [show start + (r + 1) = start + 1 + r from by omega]
      exact hlast

theorem processBlockBatch_frame
    (parse : String → Except String Node) (mapping : List MapEntry)
    (attempts1 attempts2 : Nat → Except String String) :
    ∀ (retries start : Nat),
      (∀ j, j ≤ retries → attempts1 (start + j) = attempts2 (start + j)) →
      processBlockBatch parse mapping attempts1 start retries =
        processBlockBatch parse mapping attempts2 start retries := by
  intro retries
  induction retries with
  | zero =>
    intro start hagree
    have h0 := hagree 0 (Nat.le_refl 0)
    rw [Nat.add_zero] at h0
    unfold processBlockBatch
    rw [h0]
  | succ r ih =>
    intro start hagree
    have h0 := hagree 0 (Nat.zero_le _)
    rw [Nat.add_zero] at h0
    unfold processBlockBatch
    rw [h0]
    cases attemptOutcome parse mapping (attempts2 start) with
    | ok v => rfl
    | error e =>
      exact ih (start + 1) fun j hj => by
        rw [show start + 1 + j = start + (j + 1) from by omega]
        exact hagree (j + 1) (by omega)

/-- C8.  Any failure of an attempt (HTTP error, missing chunk id, chunk
validation failure) makes `processBlockBatch` retry the whole chunk from
scratch with the same payload and mapping: the first successful attempt
within the budget is returned; when all `retries + 1` attempts fail the
last error is propagated; the function never consults attempts beyond the
budget.  In `repairLanguageFields`, a chunk whose runner fails has its
results filled with nulls of the chunk's length, and the result of every
chunk depends only on that chunk's own runner outcome, leaving sibling
chunks unaffected. -/
theorem C8_retry_policy :
    (∀ (parse : String → Except String Node) (mapping : List MapEntry)
        (attempts : Nat → Except String String)
        (k start retries : Nat) (v : List (Nat × String)),
      k ≤ retries →
      (∀ j < k, ∃ e, attemptOutcome parse mapping (attempts (start + j)) =
        .error e) →
      attemptOutcome parse mapping (attempts (start + k)) = .ok v →
      processBlockBatch parse mapping attempts start retries = .ok v) ∧
    (∀ (parse : String → Except String Node) (mapping : List MapEntry)
        (attempts : Nat → Except String String) (retries start : Nat),
      (∀ j, j ≤ retries → ∃ e,
        attemptOutcome parse mapping (attempts (start + j)) = .error e) →
      ∃ e, processBlockBatch parse mapping attempts start retries =
          .error e ∧
        attemptOutcome parse mapping (attempts (start + retries)) =
          .error e) ∧
    (∀ (parse : String → Except String Node) (mapping : List MapEntry)
        (attempts1 attempts2 : Nat → Except String String)
        (retries start : Nat),
      (∀ j, j ≤ retries → attempts1 (start + j) = attempts2 (start + j)) →
      processBlockBatch parse mapping attempts1 start retries =
        processBlockBatch parse mapping attempts2 start retries) ∧
    (∀ {E : Type} (tasks : List String) (chunkSize : Nat)
        (run : Nat → List String → Except E (List String))
        (ci : Nat) (chunk : List String) (e : E),
      (chunksOfF tasks.length chunkSize tasks)[ci]? = some chunk →
      run ci chunk = .error e →
      (repairLanguageFields tasks chunkSize run)[ci]? =
        some (List.replicate chunk.length none)) ∧
    (∀ {E : Type} (tasks : List String) (chunkSize : Nat)
        (run1 run2 : Nat → List String → Except E (List String))
        (j : Nat) (chunk : List String),
      (chunksOfF tasks.length chunkSize tasks)[j]? = some chunk →
      run1 j chunk = run2 j chunk →
      (repairLanguageFields tasks chunkSize run1)[j]? =
        (repairLanguageFields tasks chunkSize run2)[j]?) := by
  refine ⟨fun parse mapping attempts k start retries v =>
      processBlockBatch_first_success parse mapping attempts k start retries v,
    fun parse mapping attempts retries start =>
      processBlockBatch_exhausted parse mapping attempts retries start,
    fun parse mapping a1 a2 retries start =>
      processBlockBatch_frame parse mapping a1 a2 retries start, ?_, ?_⟩
  · intro E tasks chunkSize run ci chunk e hchunk hrun
    simp only [repairLanguageFields, List.getElem?_map, List.getElem?_enum,
      hchunk, Option.map_some', hrun]
  · intro E tasks chunkSize run1 run2 j chunk hchunk hagree
    simp only [repairLanguageFields, List.getElem?_map, List.getElem?_enum,
      hchunk, Option.map_some', hagree]

/-- Witness for C8: with an oracle that fails once and then succeeds with
an empty response over an empty mapping, a budget of 1 returns the decoded
success; and a two-task list with chunk size 1 whose first chunk fails is
filled with one null while the second chunk is unaffected. -/
theorem C8_witness :
    processBlockBatch (fun s => .ok (textNode s))
        []
        (fun j => if j = 0 then .error "boom" else .ok "ok")
        0 1 = .ok [] ∧
    (repairLanguageFields ["a", "b"] 1
        (fun ci c => if ci = 0 then .error "x" else .ok c))[0]? =
      some (List.replicate (["a"] : List String).length none) :=
  ⟨processBlockBatch_first_success (fun s => .ok (textNode s)) []
      (fun j => if j = 0 then .error "boom" else .ok "ok") 1 0 1 []
      (by decide)
      (fun j hj => ⟨.httpError "boom", by
        interval_cases j
        rfl⟩)
      (by rfl),
    C8_retry_policy.2.2.2.1 ["a", "b"] 1
      (fun ci c => if ci = 0 then .error "x" else .ok c) 0 ["a"] "x"
      (by rfl) (by rfl)⟩

/-! # Claim C9: link localization -/

theorem mem_of_listStartsWith (p s : List Char) (c : Char) (hc : c ∈ p)
    (h : listStartsWith p s = true) : c ∈ s := by
  induction p generalizing s with
  | nil => exact absurd hc (by simp)
  | cons x xs ih =>
    cases s with
    | nil => exact absurd h (by simp [listStartsWith])
    | cons y ys =>
      simp only [listStartsWith, Bool.and_eq_true, decide_eq_true_eq] at h
      obtain ⟨hxy, hrest⟩ := h
      cases hc with
      | head =>
        subst hxy
        exact List.mem_cons_self _ _
      | tail _ hmem => exact List.mem_cons_of_mem _ (ih ys hmem hrest)

theorem colon_mem_of_matchesLowerScheme (l : List Char)
    (h : matchesLowerScheme l = true) : ':' ∈ l := by
  simp only [matchesLowerScheme, Bool.and_eq_true] at h
  obtain ⟨_, hhead⟩ := h
  rw [beq_iff_eq] at hhead
  have hmem : ':' ∈ l.drop (l.takeWhile isLowerAlpha).length := by
    cases hd : l.drop (l.takeWhile isLowerAlpha).length with
    | nil => rw [hd] at hhead; simp at hhead
    | cons c t =>
      rw [hd] at hhead
      simp only [List.head?_cons, Option.some_inj] at hhead
      subst hhead
      exact List.mem_cons_self _ _
  exact List.drop_subset _ _ hmem

theorem colon_mem_of_hasSchemePat (l : List Char)
    (h : hasSchemePat l = true) : ':' ∈ l := by
  cases l with
  | nil => exact absurd h (by simp [hasSchemePat])
  | cons c cs =>
    simp only [hasSchemePat, Bool.and_eq_true] at h
    obtain ⟨_, hhead⟩ := h
    rw [beq_iff_eq] at hhead
    have hmem : ':' ∈ cs.dropWhile isSchemeChar := by
      cases hd : cs.dropWhile isSchemeChar with
      | nil => rw [hd] at hhead; simp at hhead
      | cons x t =>
        rw [hd] at hhead
        simp only [List.head?_cons, Option.some_inj] at hhead
        subst hhead
        exact List.mem_cons_self _ _
    exact List.mem_cons_of_mem _
      ((List.dropWhile_sublist _).subset hmem)

theorem mem_of_urlPreprocess (c : Char) (l : List Char)
    (h : c ∈ urlPreprocess l) : c ∈ l := by
  simp only [urlPreprocess] at h
  rw [List.mem_reverse] at h
  have h1 := (List.dropWhile_sublist _).subset h
  rw [List.mem_reverse] at h1
  have h2 := (List.dropWhile_sublist _).subset h1
  exact List.mem_of_mem_filter h2

/-- C9 counterexample.  An anchor with an empty `href` satisfies none of
the claim's leave-unmodified conditions, and the claim's resolution rule
would localize it to `/fr/blog/post.html` (as `prefixPath` itself shows);
but `processRelativeLinks` tests the attribute for JS truthiness, so the
empty href is left unmodified. -/
theorem C9_counterexample :
    processRelativeLinks "fr" "blog/post.html"
        (tagNode "a" [("href", "")] []) = tagNode "a" [("href", "")] [] ∧
    prefixPath "" "fr" "blog/post.html" = some "/fr/blog/post.html" ∧
    listStartsWith "#".data "".data = false ∧
    listStartsWith "mailto:".data "".data = false ∧
    listStartsWith "tel:".data "".data = false ∧
    matchesLowerScheme "".data = false ∧
    listStartsWith "//".data "".data = false ∧
    extnameOf (resolveRefParts
        (basePathOf (urlPreprocess (backslashToSlash "blog/post.html".data)))
        (urlPreprocess "".data)).1 = ".html".data := by
  refine ⟨by rfl, by rfl, by decide, by decide, by decide, by decide,
    by decide, by rfl⟩

/-- C9 amended.  `prefixPath` leaves an href unmodified (returns `none`)
when it starts with `#`, `mailto:`, `tel:`, a lowercase URL scheme, or
`//` — exactly the source's literal skips.  An href containing no colon
and no authority (no slash pair after preprocessing), resolved against a
page path free of `:`, `?`, `#` and of a leading slash pair, is localized
according to the resolved reference: a non-HTML non-empty extension
leaves it unmodified, otherwise it becomes `/targetLang` + the
percent-encoded resolved path + query + fragment.
`processRelativeLinks` applies this to every `a` node with a truthy
(non-empty) href — an empty href is skipped entirely.  The spec's
concrete examples hold, as do the WHATWG same-special-scheme quirk
(`HTTP:foo.html` is localized) and percent-encoding examples. -/
theorem C9_link_localization_amended :
    (∀ href lang page : String,
      (listStartsWith "#".data href.data = true ∨
       listStartsWith "mailto:".data href.data = true ∨
       listStartsWith "tel:".data href.data = true ∨
       matchesLowerScheme href.data = true ∨
       listStartsWith "//".data href.data = true) →
      prefixPath href lang page = none) ∧
    (∀ href lang page : String,
      listStartsWith "#".data href.data = false →
      listStartsWith "//".data href.data = false →
      ':' ∉ href.data →
      startsWithTwoSlashes (urlPreprocess href.data) = false →
      ':' ∉ page.data →
      '?' ∉ page.data →
      '#' ∉ page.data →
      startsWithTwoSlashes (urlPreprocess (backslashToSlash page.data)) =
        false →
      ((¬ (extnameOf (resolveRefParts
            (basePathOf (urlPreprocess (backslashToSlash page.data)))
            (urlPreprocess href.data)).1 = [] ∨
          extnameOf (resolveRefParts
            (basePathOf (urlPreprocess (backslashToSlash page.data)))
            (urlPreprocess href.data)).1 = ".html".data) →
        prefixPath href lang page = none) ∧
      ((extnameOf (resolveRefParts
            (basePathOf (urlPreprocess (backslashToSlash page.data)))
            (urlPreprocess href.data)).1 = [] ∨
        extnameOf (resolveRefParts
            (basePathOf (urlPreprocess (backslashToSlash page.data)))
            (urlPreprocess href.data)).1 = ".html".data) →
        prefixPath href lang page =
          some (String.mk (('/' :: lang.data) ++
            (resolveRefParts
              (basePathOf (urlPreprocess (backslashToSlash page.data)))
              (urlPreprocess href.data)).1 ++
            (resolveRefParts
              (basePathOf (urlPreprocess (backslashToSlash page.data)))
              (urlPreprocess href.data)).2.1 ++
            (resolveRefParts
              (basePathOf (urlPreprocess (backslashToSlash page.data)))
              (urlPreprocess href.data)).2.2))))) ∧
    (∀ (lang page dd : String) (k : NKind) (ats : List (String × String))
        (cs : List Node),
      List.lookup "href" ats = some "" →
      processRelativeLinks lang page (Node.mk k "a" dd ats cs) =
        Node.mk k "a" dd ats (processLinksList lang page cs)) ∧
    (prefixPath "../../d/e.html" "fr" "blog/post.html" =
      some "/fr/d/e.html" ∧
     prefixPath "#top" "fr" "blog/post.html" = none ∧
     prefixPath "mailto:a@b.com" "fr" "blog/post.html" = none ∧
     prefixPath "//cdn.example.com" "fr" "blog/post.html" = none ∧
     prefixPath "style.css" "fr" "blog/post.html" = none ∧
     prefixPath "HTTP:foo.html" "fr" "blog/post.html" =
       some "/fr/blog/foo.html" ∧
     prefixPath "HTTPS:foo.html" "fr" "blog/post.html" = none ∧
     prefixPath "a b.html" "fr" "blog/post.html" =
       some "/fr/blog/a%20b.html" ∧
     prefixPath "café.html" "fr" "blog/post.html" =
       some "/fr/blog/caf%C3%A9.html") := by
  refine ⟨?_, ?_, ?_, by rfl, by rfl, by rfl, by rfl, by rfl, by rfl,
    by rfl, by rfl, by rfl⟩
  · intro href lang page hdisj
    simp only [prefixPath]
    by_cases h1 : listStartsWith "#".data href.data = true
    · rw [if_pos h1]
    · rw [if_neg h1]
      by_cases h2 : listStartsWith "mailto:".data href.data = true
      · rw [if_pos h2]
      · rw [if_neg h2]
        by_cases h3 : listStartsWith "tel:".data href.data = true
        · rw [if_pos h3]
        · rw [if_neg h3]
          by_cases h4 : matchesLowerScheme href.data = true
          · rw [if_pos h4]
          · rw [if_neg h4]
            by_cases h5 : listStartsWith "//".data href.data = true
            · rw [if_pos h5]
            · exfalso
              rcases hdisj with h | h | h | h | h
              exacts [h1 h, h2 h, h3 h, h4 h, h5 h]
  · intro href lang page hhash hslash hcolon h2sl hpc hpq hph hp2
    have hmailto : listStartsWith "mailto:".data href.data = false := by
      cases hm : listStartsWith "mailto:".data href.data with
      | false => rfl
      | true =>
        exact absurd (mem_of_listStartsWith _ _ ':' (by decide) hm) hcolon
    have htel : listStartsWith "tel:".data href.data = false := by
      cases hm : listStartsWith "tel:".data href.data with
      | false => rfl
      | true =>
        exact absurd (mem_of_listStartsWith _ _ ':' (by decide) hm) hcolon
    have hscheme : matchesLowerScheme href.data = false := by
      cases hm : matchesLowerScheme href.data with
      | false => rfl
      | true => exact absurd (colon_mem_of_matchesLowerScheme _ hm) hcolon
    have hpat : hasSchemePat (urlPreprocess href.data) = false := by
      cases hm : hasSchemePat (urlPreprocess href.data) with
      | false => rfl
      | true =>
        exact absurd
          (mem_of_urlPreprocess ':' _ (colon_mem_of_hasSchemePat _ hm))
          hcolon
    have hres : refTarget (urlPreprocess href.data) =
        some (urlPreprocess href.data) := by
      simp only [refTarget]
      rw [if_neg (by simp [hpat]), if_neg (by simp [h2sl])]
    have hstep : prefixPath href lang page =
        (if ¬ (extnameOf (resolveRefParts
              (basePathOf (urlPreprocess (backslashToSlash page.data)))
              (urlPreprocess href.data)).1 = [] ∨
            extnameOf (resolveRefParts
              (basePathOf (urlPreprocess (backslashToSlash page.data)))
              (urlPreprocess href.data)).1 = ".html".data) then none
         else
           some (String.mk (('/' :: lang.data) ++
             (resolveRefParts
               (basePathOf (urlPreprocess (backslashToSlash page.data)))
               (urlPreprocess href.data)).1 ++
             (resolveRefParts
               (basePathOf (urlPreprocess (backslashToSlash page.data)))
               (urlPreprocess href.data)).2.1 ++
             (resolveRefParts
               (basePathOf (urlPreprocess (backslashToSlash page.data)))
               (urlPreprocess href.data)).2.2))) := by
      simp only [prefixPath]
      rw [if_neg (by simp [hhash]), if_neg (by simp [hmailto]),
        if_neg (by simp [htel]), if_neg (by simp [hscheme]),
        if_neg (by simp [hslash]), hres]
    constructor
    · intro hext
      rw [hstep, if_pos hext]
    · intro hext
      rw [hstep, if_neg (by simp [hext])]
  · intro lang page dd k ats cs hlook
    simp only [processRelativeLinks]
    rw [if_pos trivial, hlook]
    simp

/-- Witness for C9 amended: `mailto:a@b.com` is skipped through the first
conjunct, and `b.html` on page `blog/post.html` localizes to
`/fr/blog/b.html` through the second. -/
theorem C9_witness :
    prefixPath "mailto:a@b.com" "fr" "blog/post.html" = none ∧
    prefixPath "b.html" "fr" "blog/post.html" =
      some (String.mk (('/' :: "fr".data) ++
        (resolveRefParts
          (basePathOf
            (urlPreprocess (backslashToSlash "blog/post.html".data)))
          (urlPreprocess "b.html".data)).1 ++
        (resolveRefParts
          (basePathOf
            (urlPreprocess (backslashToSlash "blog/post.html".data)))
          (urlPreprocess "b.html".data)).2.1 ++
        (resolveRefParts
          (basePathOf
            (urlPreprocess (backslashToSlash "blog/post.html".data)))
          (urlPreprocess "b.html".data)).2.2)) :=
  ⟨C9_link_localization_amended.1 "mailto:a@b.com" "fr" "blog/post.html"
      (Or.inr (Or.inl (by decide))),
    ((C9_link_localization_amended.2.1 "b.html" "fr" "blog/post.html"
      (by decide) (by decide) (by decide) (by decide) (by decide)
      (by decide) (by decide) (by decide)).2 (by decide))⟩

/-! # Claim C5: payload round-trip

Supporting lemmas: decimal numerals, the digit scanner, exact substring
search, and the regex scan over a response built from noise and wrapped
chunks. -/

theorem digitChar_isDigit : ∀ d, d < 10 → isDigitChar (digitChar d) = true ∧
    digitVal (digitChar d) = d := by decide

theorem natDecAux_digits :
    ∀ fuel n, n < fuel → ∀ c ∈ natDecAux fuel n, isDigitChar c = true := by
  intro fuel
  induction fuel with
  | zero => intro n hn; omega
  | succ f ih =>
    intro n hn c hc
    simp only [natDecAux] at hc
    by_cases h10 : n < 10
    · rw [if_pos h10] at hc
      simp only [List.mem_singleton] at hc
      subst hc
      exact (digitChar_isDigit n h10).1
    · rw [if_neg h10] at hc
      rw [List.mem_append] at hc
      cases hc with
      | inl hmem =>
        refine ih (n / 10) ?_ c hmem
        have : n / 10 < n := Nat.div_lt_self (by omega) (by omega)
        omega
      | inr hmem =>
        simp only [List.mem_singleton] at hmem
        subst hmem
        exact (digitChar_isDigit (n % 10) (Nat.mod_lt _ (by omega))).1

theorem natDecAux_ne_nil : ∀ fuel n, n < fuel → natDecAux fuel n ≠ [] := by
  intro fuel
  induction fuel with
  | zero => intro n hn; omega
  | succ f ih =>
    intro n hn
    simp only [natDecAux]
    by_cases h10 : n < 10
    · rw [if_pos h10]
      simp
    · rw [if_neg h10]
      simp

theorem decValue_foldl_natDecAux :
    ∀ fuel n, n < fuel → ∀ acc,
      (natDecAux fuel n).foldl (fun a c => 10 * a + digitVal c) acc =
        acc * 10 ^ (natDecAux fuel n).length + n := by
  intro fuel
  induction fuel with
  | zero => intro n hn; omega
  | succ f ih =>
    intro n hn acc
    simp only [natDecAux]
    by_cases h10 : n < 10
    · rw [if_pos h10]
      simp only [List.foldl_cons, List.foldl_nil, List.length_singleton,
        pow_one]
      rw [(digitChar_isDigit n h10).2]
      omega
    · rw [if_neg h10]
      have hdiv : n / 10 < f := by
        have : n / 10 < n := Nat.div_lt_self (by omega) (by omega)
        omega
      rw [List.foldl_append]
      rw [ih (n / 10) hdiv acc]
      simp only [List.foldl_cons, List.foldl_nil, List.length_append,
        List.length_singleton]
      rw [(digitChar_isDigit (n % 10) (Nat.mod_lt _ (by omega))).2]
      have hmod := Nat.div_add_mod n 10
      rw [pow_succ]
      ring_nf
      omega

theorem decValue_natDec (n : Nat) : decValue (natDec n) = n := by
  unfold decValue natDec
  rw [decValue_foldl_natDecAux (n + 1) n (by omega) 0]
  simp

theorem natDec_digits (n : Nat) : ∀ c ∈ natDec n, isDigitChar c = true :=
  natDecAux_digits (n + 1) n (by omega)

theorem natDec_ne_nil (n : Nat) : natDec n ≠ [] :=
  natDecAux_ne_nil (n + 1) n (by omega)

theorem takeDigits_append (ds rest : List Char)
    (hds : ∀ c ∈ ds, isDigitChar c = true)
    (hrest : ∀ c, rest.head? = some c → isDigitChar c = false) :
    takeDigits (ds ++ rest) = (ds, rest) := by
  induction ds with
  | nil =>
    cases rest with
    | nil => rfl
    | cons c cs =>
      simp only [List.nil_append, takeDigits]
      rw [if_neg (by simp [hrest c rfl])]
  | cons d ds2 ih =>
    simp only [List.cons_append, takeDigits, List.append_eq]
    rw [if_pos (hds d (List.mem_cons_self _ _)),
      ih fun c hc => hds c (List.mem_cons_of_mem _ hc)]

theorem dropExact_append (p s : List Char) : dropExact p (p ++ s) = some s := by
  induction p with
  | nil => rfl
  | cons c cs ih =>
    simp only [List.cons_append, dropExact, if_pos rfl]
    exact ih

theorem dropExact_some (p : List Char) :
    ∀ s r, dropExact p s = some r → s = p ++ r := by
  induction p with
  | nil =>
    intro s r h
    simp only [dropExact, Option.some_inj] at h
    rw [h, List.nil_append]
  | cons c cs ih =>
    intro s r h
    cases s with
    | nil => exact absurd h (by simp [dropExact])
    | cons x xs =>
      simp only [dropExact] at h
      by_cases hcx : c = x
      · rw [if_pos hcx] at h
        rw [List.cons_append, ← hcx, ih xs r h]
      · rw [if_neg hcx] at h
        exact absurd h (by simp)

theorem takeDigits_eq_append (l : List Char) :
    l = (takeDigits l).1 ++ (takeDigits l).2 := by
  induction l with
  | nil => rfl
  | cons c cs ih =>
    simp only [takeDigits]
    by_cases h : isDigitChar c = true
    · rw [if_pos h]
      simp only [List.cons_append]
      exact congrArg (c :: ·) ih
    · rw [if_neg h]
      rfl

theorem listStartsWith_append_self (p r : List Char) :
    listStartsWith p (p ++ r) = true := by
  induction p with
  | nil => rfl
  | cons c cs ih => simp [listStartsWith, ih]

theorem startsWith_eq_append (p : List Char) :
    ∀ s, listStartsWith p s = true → p ++ s.drop p.length = s := by
  induction p with
  | nil => intro s _; rfl
  | cons c cs ih =>
    intro s h
    cases s with
    | nil => exact absurd h (by simp [listStartsWith])
    | cons x xs =>
      simp only [listStartsWith, Bool.and_eq_true, decide_eq_true_eq] at h
      obtain ⟨hcx, hrest⟩ := h
      simp only [List.length_cons, List.drop_succ_cons, List.cons_append]
      rw [hcx, ih xs hrest]

theorem splitAtSub_some (pat : List Char) :
    ∀ s a b, splitAtSub pat s = some (a, b) → s = a ++ (pat ++ b) := by
  intro s
  induction s with
  | nil =>
    intro a b h
    simp only [splitAtSub] at h
    by_cases hp : pat.isEmpty
    · rw [if_pos hp] at h
      simp only [Option.some_inj, Prod.mk.injEq] at h
      obtain ⟨h1, h2⟩ := h
      rw [← h1, ← h2, List.isEmpty_iff.mp hp]
      rfl
    · rw [if_neg hp] at h
      exact absurd h (by simp)
  | cons c cs ih =>
    intro a b h
    simp only [splitAtSub] at h
    by_cases hsw : listStartsWith pat (c :: cs) = true
    · rw [if_pos hsw] at h
      simp only [Option.some_inj, Prod.mk.injEq] at h
      obtain ⟨h1, h2⟩ := h
      rw [← h1, ← h2, List.nil_append]
      exact (startsWith_eq_append pat (c :: cs) hsw).symm
    · rw [if_neg hsw] at h
      cases hsp : splitAtSub pat cs with
      | none => rw [hsp] at h; exact absurd h (by simp)
      | some pr =>
        obtain ⟨a2, b2⟩ := pr
        rw [hsp] at h
        simp only [Option.some_inj, Prod.mk.injEq] at h
        obtain ⟨h1, h2⟩ := h
        rw [← h1, ← h2, List.cons_append]
        exact congrArg (c :: ·) (ih a2 b2 hsp)

theorem hasSub_length (pat s : List Char) (h : hasSub pat s = true) :
    pat.length ≤ s.length := by
  simp only [hasSub, Option.isSome_iff_exists] at h
  obtain ⟨pr, hpr⟩ := h
  obtain ⟨a, b⟩ := pr
  rw [splitAtSub_some pat s a b hpr]
  simp only [List.length_append]
  omega

theorem hasSub_cons_of_tail (pat cs : List Char) (c : Char)
    (h : hasSub pat cs = true) : hasSub pat (c :: cs) = true := by
  simp only [hasSub, splitAtSub]
  by_cases hsw : listStartsWith pat (c :: cs) = true
  · rw [if_pos hsw]
    rfl
  · rw [if_neg hsw]
    simp only [hasSub] at h
    cases hsp : splitAtSub pat cs with
    | none => rw [hsp] at h; exact absurd h (by simp)
    | some pr => rfl

theorem hasSub_of_startsWith (pat s : List Char) (hpat : pat ≠ [])
    (h : listStartsWith pat s = true) : hasSub pat s = true := by
  cases s with
  | nil =>
    cases pat with
    | nil => exact absurd rfl hpat
    | cons p ps => exact absurd h (by simp [listStartsWith])
  | cons c cs =>
    simp only [hasSub, splitAtSub, if_pos h]
    rfl

theorem startsWith_of_le (pat : List Char) :
    ∀ u v : List Char, listStartsWith pat (u ++ v) = true →
      pat.length ≤ u.length → listStartsWith pat u = true := by
  induction pat with
  | nil => intro u v _ _; rfl
  | cons p ps ih =>
    intro u v h hlen
    cases u with
    | nil => simp at hlen
    | cons x xs =>
      simp only [List.cons_append, listStartsWith, Bool.and_eq_true,
        decide_eq_true_eq] at h ⊢
      exact ⟨h.1, ih xs v h.2 (by simpa using hlen)⟩

theorem startsWith_append_mem (pat : List Char) (c : Char) :
    ∀ u v : List Char, listStartsWith pat (u ++ c :: v) = true →
      pat.length ≤ u.length ∨ c ∈ pat := by
  induction pat with
  | nil => intro u v _; exact Or.inl (by simp)
  | cons p ps ih =>
    intro u v h
    cases u with
    | nil =>
      simp only [List.nil_append, listStartsWith, Bool.and_eq_true,
        decide_eq_true_eq] at h
      exact Or.inr (h.1 ▸ List.mem_cons_self _ _)
    | cons x xs =>
      simp only [List.cons_append, listStartsWith, Bool.and_eq_true,
        decide_eq_true_eq] at h
      cases ih xs v h.2 with
      | inl hl => exact Or.inl (by simp only [List.length_cons]; omega)
      | inr hr => exact Or.inr (List.mem_cons_of_mem _ hr)

theorem head_mem_of_startsWith (pat : List Char) (c : Char) (t : List Char)
    (hpat : pat ≠ []) (h : listStartsWith pat (c :: t) = true) : c ∈ pat := by
  cases pat with
  | nil => exact absurd rfl hpat
  | cons p ps =>
    simp only [listStartsWith, Bool.and_eq_true, decide_eq_true_eq] at h
    exact h.1 ▸ List.mem_cons_self _ _

theorem hasSub_false_tail (pat : List Char) (c : Char) (cs : List Char)
    (h : hasSub pat (c :: cs) = false) : hasSub pat cs = false := by
  cases hs : hasSub pat cs with
  | false => rfl
  | true => exact absurd (hasSub_cons_of_tail pat cs c hs) (by simp [h])

theorem noCrossing (pat : List Char) (c : Char) (hpat : pat ≠ [])
    (hc : c ∉ pat) :
    ∀ xs ys : List Char, hasSub pat xs = false → hasSub pat ys = false →
      hasSub pat (xs ++ c :: ys) = false := by
  intro xs
  induction xs with
  | nil =>
    intro ys _ hys
    simp only [List.nil_append, hasSub, splitAtSub]
    by_cases hsw : listStartsWith pat (c :: ys) = true
    · exact absurd (head_mem_of_startsWith pat c ys hpat hsw) hc
    · rw [if_neg hsw]
      simp only [hasSub] at hys
      cases hsp : splitAtSub pat ys with
      | none => rfl
      | some pr => rw [hsp] at hys; exact absurd hys (by simp)
  | cons x xs2 ih =>
    intro ys hxs hys
    simp only [List.cons_append, hasSub, splitAtSub, List.append_eq]
    by_cases hsw : listStartsWith pat (x :: (xs2 ++ c :: ys)) = true
    · exfalso
      have := startsWith_append_mem pat c (x :: xs2) ys
        (by simpa using hsw)
      cases this with
      | inl hl =>
        have hsw2 := startsWith_of_le pat (x :: xs2) (c :: ys)
          (by simpa using hsw) hl
        exact absurd (hasSub_of_startsWith pat (x :: xs2) hpat hsw2)
          (by simp [hxs])
      | inr hr => exact hc hr
    · rw [if_neg hsw]
      have htail := ih ys (hasSub_false_tail pat x xs2 hxs) hys
      simp only [hasSub] at htail
      cases hsp : splitAtSub pat (xs2 ++ c :: ys) with
      | none => rfl
      | some pr => rw [hsp] at htail; exact absurd htail (by simp)

theorem splitAtSub_clean (pat : List Char) (hpat : pat ≠ []) :
    ∀ a r : List Char, hasSub pat (a ++ pat.dropLast) = false →
      splitAtSub pat (a ++ (pat ++ r)) = some (a, r) := by
  intro a
  induction a with
  | nil =>
    intro r _
    cases hp : pat with
    | nil => exact absurd hp hpat
    | cons p ps =>
      have hsw : listStartsWith (p :: ps) (p :: (ps ++ r)) = true := by
        have h0 := listStartsWith_append_self (p :: ps) r
        simp only [List.cons_append] at h0
        exact h0
      have hdrop : List.drop (p :: ps).length (p :: (ps ++ r)) = r := by
        have h0 := List.drop_left (p :: ps) r
        simp only [List.cons_append] at h0
        exact h0
      simp only [List.nil_append, List.cons_append, splitAtSub,
        List.append_eq]
      rw [if_pos hsw, hdrop]
  | cons x a2 ih =>
    intro r hclean
    simp only [List.cons_append, splitAtSub, List.append_eq]
    by_cases hsw : listStartsWith pat (x :: (a2 ++ (pat ++ r))) = true
    · exfalso
      have hlast := List.dropLast_append_getLast hpat
      have hshape : x :: (a2 ++ (pat ++ r)) =
          ((x :: a2) ++ pat.dropLast) ++
            (pat.getLast hpat :: r) := by
        conv_lhs => rw [← hlast]
        simp [List.append_assoc]
      rw [hshape] at hsw
      have hle : pat.length ≤ ((x :: a2) ++ pat.dropLast).length := by
        simp only [List.length_append, List.length_cons,
          List.length_dropLast]
        have : 1 ≤ pat.length := by
          cases pat with
          | nil => exact absurd rfl hpat
          | cons _ _ => simp
        omega
      have hsw2 := startsWith_of_le pat _ _ hsw hle
      have hclean2 : hasSub pat ((x :: a2) ++ pat.dropLast) = false := by
        simpa using hclean
      rw [hasSub_of_startsWith pat _ hpat hsw2] at hclean2
      exact Bool.noConfusion hclean2
    · rw [if_neg hsw]
      rw [ih r (hasSub_false_tail pat x _ hclean)]









theorem matchChunkAt_cons_ne (c : Char) (s : List Char) (hc : c ≠ '<') :
    matchChunkAt (c :: s) = none := by
  have hopen : chunkOpenLit = '<' :: "chunk id=\"".data := rfl
  have hdrop : dropExact chunkOpenLit (c :: s) = none := by
    rw [hopen]
    simp only [dropExact]
    rw [if_neg fun h => hc h.symm]
  unfold matchChunkAt
  rw [hdrop]

theorem scanChunksF_nil (fuel : Nat) : scanChunksF fuel [] = [] := by
  cases fuel with
  | zero => rfl
  | succ f => rfl

theorem matchChunkAt_some_shorter (s : List Char) (i : Nat)
    (body rest : List Char) (hm : matchChunkAt s = some (i, body, rest)) :
    rest.length < s.length := by
  unfold matchChunkAt at hm
  split at hm
  · exact absurd hm (by simp)
  · rename_i s1 hd
    simp only [] at hm
    split at hm
    · exact absurd hm (by simp)
    · split at hm
      · exact absurd hm (by simp)
      · rename_i s2 hd2
        split at hm
        · exact absurd hm (by simp)
        · rename_i b2 r2 hsp
          simp only [Option.some_inj, Prod.mk.injEq] at hm
          obtain ⟨_, hb, hr⟩ := hm
          have e1 := dropExact_some chunkOpenLit s s1 hd
          have e2 := takeDigits_eq_append s1
          have e3 := dropExact_some ['"', '>'] (takeDigits s1).2 s2 hd2
          have e4 := splitAtSub_some chunkCloseLit s2 b2 r2 hsp
          have ho : 0 < chunkOpenLit.length := by decide
          rw [e4] at e3
          rw [e3] at e2
          rw [e2] at e1
          rw [e1, ← hr]
          simp only [List.length_append, List.length_cons]
          omega

theorem scanChunksF_fuel_inv :
    ∀ f1 : Nat, ∀ s : List Char, ∀ f2 : Nat, s.length ≤ f1 → s.length ≤ f2 →
      scanChunksF f1 s = scanChunksF f2 s := by
  intro f1
  induction f1 with
  | zero =>
    intro s f2 h1 _
    have hs : s = [] := List.eq_nil_of_length_eq_zero (by omega)
    subst hs
    rw [scanChunksF_nil, scanChunksF_nil]
  | succ f ih =>
    intro s f2 h1 h2
    cases f2 with
    | zero =>
      have hs : s = [] := List.eq_nil_of_length_eq_zero (by omega)
      subst hs
      rw [scanChunksF_nil, scanChunksF_nil]
    | succ f2b =>
      simp only [scanChunksF]
      cases hm : matchChunkAt s with
      | none =>
        cases s with
        | nil => rfl
        | cons c tl =>
          simp only [List.length_cons] at h1 h2
          exact ih tl f2b (by omega) (by omega)
      | some t =>
        obtain ⟨i, body, rest⟩ := t
        have hlt := matchChunkAt_some_shorter s i body rest hm
        exact congrArg (List.cons (i, body)) (ih rest f2b (by omega) (by omega))

theorem scanChunksF_noise_only :
    ∀ nz : List Char, ∀ fuel, (∀ c ∈ nz, c ≠ '<') → nz.length ≤ fuel →
      scanChunksF fuel nz = [] := by
  intro nz
  induction nz with
  | nil => intro fuel _ _; exact scanChunksF_nil fuel
  | cons c tl ih =>
    intro fuel hn hlen
    cases fuel with
    | zero => simp at hlen
    | succ f =>
      simp only [scanChunksF]
      rw [matchChunkAt_cons_ne c tl (hn c (List.mem_cons_self _ _))]
      exact ih f (fun d hd => hn d (List.mem_cons_of_mem _ hd))
        (by simp only [List.length_cons] at hlen; omega)

theorem scanChunksF_skip_noise :
    ∀ nz : List Char, ∀ s : List Char, ∀ fuel, (∀ c ∈ nz, c ≠ '<') →
      nz.length + s.length ≤ fuel →
      scanChunksF fuel (nz ++ s) = scanChunksF s.length s := by
  intro nz
  induction nz with
  | nil =>
    intro s fuel _ hlen
    exact scanChunksF_fuel_inv fuel s s.length (by simpa using hlen) le_rfl
  | cons c tl ih =>
    intro s fuel hn hlen
    cases fuel with
    | zero => simp at hlen
    | succ f =>
      simp only [List.cons_append, scanChunksF]
      rw [matchChunkAt_cons_ne c _ (hn c (List.mem_cons_self _ _))]
      exact ih s f (fun d hd => hn d (List.mem_cons_of_mem _ hd))
        (by simp only [List.length_cons] at hlen; omega)

theorem matchChunkAt_chunkWrap (i : Nat) (h R : List Char)
    (hcl : hasSub chunkCloseLit h = false) :
    matchChunkAt (chunkWrapL i h ++ R) =
      some (i, '\n' :: (h ++ ['\n']), '\n' :: R) := by
  have hshape : chunkWrapL i h ++ R =
      chunkOpenLit ++ (natDec i ++ ('"' :: '>' ::
        (('\n' :: (h ++ ['\n'])) ++ (chunkCloseLit ++ ('\n' :: R))))) := by
    simp [chunkWrapL, chunkOpenLit, chunkCloseLit]
  have htake : takeDigits (natDec i ++ ('"' :: '>' ::
      (('\n' :: (h ++ ['\n'])) ++ (chunkCloseLit ++ ('\n' :: R))))) =
      (natDec i, '"' :: '>' ::
        (('\n' :: (h ++ ['\n'])) ++ (chunkCloseLit ++ ('\n' :: R)))) := by
    refine takeDigits_append _ _ (natDec_digits i) ?_
    intro c hc
    simp only [List.head?_cons, Option.some_inj] at hc
    rw [← hc]
    decide
  have hne : (natDec i).isEmpty = false := by
    cases hn : natDec i with
    | nil => exact absurd hn (natDec_ne_nil i)
    | cons a l => rfl
  have hdq : ∀ X : List Char, dropExact ['"', '>'] ('"' :: '>' :: X) = some X :=
    fun X => rfl
  have hcne : chunkCloseLit ≠ [] := by decide
  have hnl : '\n' ∉ chunkCloseLit := by decide
  have hc1 : hasSub chunkCloseLit chunkCloseLit.dropLast = false := by decide
  have hc0 : hasSub chunkCloseLit ([] : List Char) = false := by decide
  have h2 : hasSub chunkCloseLit (h ++ '\n' :: chunkCloseLit.dropLast) = false :=
    noCrossing chunkCloseLit '\n' hcne hnl h chunkCloseLit.dropLast hcl hc1
  have h3 : hasSub chunkCloseLit
      ('\n' :: (h ++ '\n' :: chunkCloseLit.dropLast)) = false := by
    have h4 := noCrossing chunkCloseLit '\n' hcne hnl []
      (h ++ '\n' :: chunkCloseLit.dropLast) hc0 h2
    simpa using h4
  have hclean : hasSub chunkCloseLit
      (('\n' :: (h ++ ['\n'])) ++ chunkCloseLit.dropLast) = false := by
    have heq : ('\n' :: (h ++ ['\n'])) ++ chunkCloseLit.dropLast =
        '\n' :: (h ++ '\n' :: chunkCloseLit.dropLast) := by simp
    rw [heq]
    exact h3
  have hsplit := splitAtSub_clean chunkCloseLit hcne
    ('\n' :: (h ++ ['\n'])) ('\n' :: R) hclean
  rw [hshape]
  simp only [matchChunkAt, dropExact_append, htake, hne, Bool.false_eq_true,
    if_false, hdq, hsplit, decValue_natDec]

theorem scanChunksF_chunk_step (f i : Nat) (h R : List Char)
    (hcl : hasSub chunkCloseLit h = false) :
    scanChunksF (f + 1) (chunkWrapL i h ++ R) =
      (i, '\n' :: (h ++ ['\n'])) :: scanChunksF f ('\n' :: R) := by
  simp only [scanChunksF]
  rw [matchChunkAt_chunkWrap i h R hcl]

theorem scanChunksF_respBuild :
    ∀ parts : List (List Char × Nat × List Char), ∀ trail fuel,
      (∀ p ∈ parts, (∀ c ∈ p.1, c ≠ '<') ∧
        hasSub chunkCloseLit p.2.2 = false) →
      (∀ c ∈ trail, c ≠ '<') →
      (respBuild parts trail).length ≤ fuel →
      scanChunksF fuel (respBuild parts trail) =
        parts.map fun p => (p.2.1, '\n' :: (p.2.2 ++ ['\n'])) := by
  intro parts
  induction parts with
  | nil =>
    intro trail fuel _ ht hlen
    exact scanChunksF_noise_only trail fuel ht hlen
  | cons p ps ih =>
    obtain ⟨nz, i, h⟩ := p
    intro trail fuel hp ht hlen
    have hhead := hp (nz, i, h) (List.mem_cons_self _ _)
    simp only [respBuild, List.length_append] at hlen
    simp only [respBuild, List.map_cons]
    rw [scanChunksF_skip_noise nz (chunkWrapL i h ++ respBuild ps trail)
      fuel hhead.1 (by simp only [List.length_append]; omega)]
    have h0 : ("<chunk id=\"".data).length = 11 := by decide
    have hw : 11 ≤ (chunkWrapL i h).length := by
      simp only [chunkWrapL, List.length_append, List.length_cons]
      omega
    have hpos : ∃ f2, (chunkWrapL i h ++ respBuild ps trail).length = f2 + 1 := by
      refine ⟨(chunkWrapL i h ++ respBuild ps trail).length - 1, ?_⟩
      simp only [List.length_append]
      omega
    obtain ⟨f2, hf2⟩ := hpos
    rw [hf2, scanChunksF_chunk_step f2 i h (respBuild ps trail) hhead.2]
    have hnlr : ('\n' :: respBuild ps trail) = ['\n'] ++ respBuild ps trail := rfl
    rw [hnlr, scanChunksF_skip_noise ['\n'] (respBuild ps trail) f2
      (by intro c hc; simp only [List.mem_singleton] at hc; subst hc; decide)
      (by simp only [List.length_append, List.length_singleton] at hf2
          simp only [List.length_cons, List.length_nil]
          omega)]
    rw [ih trail (respBuild ps trail).length
      (fun q hq => hp q (List.mem_cons_of_mem _ hq)) ht le_rfl]

theorem jsMapSet_append_fresh (m : List (Nat × String)) (k : Nat) (v : String)
    (hf : ∀ q ∈ m, q.1 ≠ k) : jsMapSet m k v = m ++ [(k, v)] := by
  induction m with
  | nil => rfl
  | cons q t ih =>
    obtain ⟨k2, v2⟩ := q
    simp only [jsMapSet]
    rw [if_neg (hf (k2, v2) (List.mem_cons_self _ _))]
    rw [ih fun q hq => hf q (List.mem_cons_of_mem _ hq)]
    rfl

theorem foldl_jsMapSet_pairs :
    ∀ l : List (Nat × List Char), ∀ m : List (Nat × String),
      (∀ p ∈ l, ∀ q ∈ m, q.1 ≠ p.1) →
      List.Pairwise (fun a b => a.1 ≠ b.1) l →
      l.foldl (fun mm p => jsMapSet mm p.1 (String.mk (jsTrimList p.2))) m =
        m ++ l.map fun p => (p.1, String.mk (jsTrimList p.2)) := by
  intro l
  induction l with
  | nil => intro m _ _; simp
  | cons p t ih =>
    intro m hfresh hpw
    simp only [List.foldl_cons, List.map_cons]
    rw [jsMapSet_append_fresh m p.1 _
      fun q hq => hfresh p (List.mem_cons_self _ _) q hq]
    have hfresh2 : ∀ r ∈ t,
        ∀ q ∈ m ++ [(p.1, String.mk (jsTrimList p.2))], q.1 ≠ r.1 := by
      intro r hr q hq
      rw [List.mem_append] at hq
      rcases hq with hm | hone
      · exact hfresh r (List.mem_cons_of_mem _ hr) q hm
      · simp only [List.mem_singleton] at hone
        subst hone
        exact (List.pairwise_cons.mp hpw).1 r hr
    rw [ih _ hfresh2 (List.pairwise_cons.mp hpw).2]
    simp

theorem lookup_pairwise_mem :
    ∀ l : List (Nat × String), ∀ k : Nat, ∀ v : String,
      List.Pairwise (fun a b => a.1 ≠ b.1) l →
      (k, v) ∈ l → List.lookup k l = some v := by
  intro l
  induction l with
  | nil => intro k v _ hmem; exact absurd hmem (List.not_mem_nil _)
  | cons p t ih =>
    intro k v hpw hmem
    obtain ⟨k2, v2⟩ := p
    rcases List.mem_cons.mp hmem with he | ht
    · simp only [Prod.mk.injEq] at he
      obtain ⟨h1, h2⟩ := he
      subst h1
      subst h2
      simp [List.lookup]
    · have hne : k2 ≠ k := (List.pairwise_cons.mp hpw).1 (k, v) ht
      simp only [List.lookup]
      rw [show (k == k2) = false from
        beq_eq_false_iff_ne.mpr fun hh => hne hh.symm]
      exact ih k v (List.pairwise_cons.mp hpw).2 ht

theorem jsTrimList_cons_ws (c : Char) (l : List Char)
    (hc : jsWhitespaceChar c = true) : jsTrimList (c :: l) = jsTrimList l := by
  simp only [jsTrimList, List.dropWhile_cons, hc, if_true]

theorem jsTrimList_append_ws (l : List Char) (c : Char)
    (hc : jsWhitespaceChar c = true) : jsTrimList (l ++ [c]) = jsTrimList l := by
  simp only [jsTrimList]
  rw [List.dropWhile_append]
  by_cases he : (List.dropWhile jsWhitespaceChar l).isEmpty
  · rw [if_pos he]
    have h1 : List.dropWhile jsWhitespaceChar [c] = [] := by
      simp [List.dropWhile_cons, hc]
    have h2 : List.dropWhile jsWhitespaceChar l = [] := List.isEmpty_iff.mp he
    rw [h1, h2]
  · rw [if_neg he]
    rw [List.reverse_append]
    have hrw : ([c].reverse ++ (List.dropWhile jsWhitespaceChar l).reverse) =
        c :: (List.dropWhile jsWhitespaceChar l).reverse := by simp
    rw [hrw, List.dropWhile_cons]
    simp [hc]

theorem jsTrimList_wrap (h : List Char) :
    jsTrimList ('\n' :: (h ++ ['\n'])) = jsTrimList h := by
  rw [jsTrimList_cons_ws '\n' _ (by decide),
    jsTrimList_append_ws h '\n' (by decide)]

theorem respBuild_empty_noise :
    ∀ entries : List MapEntry,
      respBuild (entries.map fun e => ([], e.index, e.originalHtml.data)) [] =
        (entries.map fun e => chunkWrapL e.index e.originalHtml.data).flatten := by
  intro entries
  induction entries with
  | nil => rfl
  | cons e t ih =>
    simp only [List.map_cons, respBuild, List.flatten_cons, List.nil_append]
    rw [ih]

theorem buildResponse_data :
    ∀ parts : List (String × Nat × String), ∀ trail : String,
      (buildResponse parts trail).data =
        respBuild (parts.map fun p => (p.1.data, p.2.1, p.2.2.data))
          trail.data := by
  intro parts
  induction parts with
  | nil => intro trail; rfl
  | cons p ps ih =>
    obtain ⟨nz, i, h⟩ := p
    intro trail
    simp only [buildResponse, List.map_cons, respBuild]
    rw [strData_append, strData_append, ih]

theorem parse_prepare_roundtrip :
    ∀ blocks : List Node,
      (∀ e ∈ (prepareTranslationPayload blocks).2,
        hasSub chunkCloseLit e.originalHtml.data = false) →
      ∀ e ∈ (prepareTranslationPayload blocks).2,
        List.lookup e.index
          (parseTranslatedPayload (prepareTranslationPayload blocks).1) =
          some (jsTrim e.originalHtml) := by
  intro blocks hclean e he
  have hdata : (prepareTranslationPayload blocks).1.data =
      respBuild ((prepareTranslationPayload blocks).2.map
        fun e => ([], e.index, e.originalHtml.data)) [] := by
    rw [respBuild_empty_noise]
    exact prepareAux_payload_data blocks 0
  have hparts : ∀ p ∈ (prepareTranslationPayload blocks).2.map
      (fun e => (([] : List Char), e.index, e.originalHtml.data)),
      (∀ c ∈ p.1, c ≠ '<') ∧ hasSub chunkCloseLit p.2.2 = false := by
    intro p hp
    rw [List.mem_map] at hp
    obtain ⟨e2, he2, hpe⟩ := hp
    subst hpe
    refine ⟨?_, hclean e2 he2⟩
    intro c hc
    exact absurd hc (List.not_mem_nil c)
  have hscan : scanChunksF (prepareTranslationPayload blocks).1.data.length
      (prepareTranslationPayload blocks).1.data =
      ((prepareTranslationPayload blocks).2.map
        fun e => (([] : List Char), e.index, e.originalHtml.data)).map
        fun p => (p.2.1, '\n' :: (p.2.2 ++ ['\n'])) := by
    rw [hdata]
    exact scanChunksF_respBuild _ [] _ hparts
      (fun c hc => absurd hc (List.not_mem_nil c)) le_rfl
  have hscan2 : scanChunksF (prepareTranslationPayload blocks).1.data.length
      (prepareTranslationPayload blocks).1.data =
      (prepareTranslationPayload blocks).2.map
        fun e => (e.index, '\n' :: (e.originalHtml.data ++ ['\n'])) := by
    rw [hscan, List.map_map]
    rfl
  have hpw1 : List.Pairwise (fun a b => a.1 ≠ b.1)
      ((prepareTranslationPayload blocks).2.map
        fun e => (e.index, '\n' :: (e.originalHtml.data ++ ['\n']))) := by
    rw [List.pairwise_map]
    exact List.Pairwise.imp (fun hab => Nat.ne_of_lt hab)
      (prepareAux_pairwise blocks 0)
  have hparse : parseTranslatedPayload (prepareTranslationPayload blocks).1 =
      ((prepareTranslationPayload blocks).2.map
        fun e => (e.index, '\n' :: (e.originalHtml.data ++ ['\n']))).map
        fun p => (p.1, String.mk (jsTrimList p.2)) := by
    unfold parseTranslatedPayload
    rw [hscan2]
    rw [foldl_jsMapSet_pairs _ []
      (fun p _ q hq => absurd hq (List.not_mem_nil q)) hpw1]
    simp
  have hpw2 : List.Pairwise (fun a b => a.1 ≠ b.1)
      (((prepareTranslationPayload blocks).2.map
        fun e => (e.index, '\n' :: (e.originalHtml.data ++ ['\n']))).map
        fun p => (p.1, String.mk (jsTrimList p.2))) := by
    rw [List.pairwise_map]
    exact hpw1
  rw [hparse]
  have hmem := List.mem_map_of_mem
    (fun p : Nat × List Char => (p.1, String.mk (jsTrimList p.2)))
    (List.mem_map_of_mem
      (fun e : MapEntry => (e.index, '\n' :: (e.originalHtml.data ++ ['\n'])))
      he)
  have htrim : String.mk (jsTrimList ('\n' :: (e.originalHtml.data ++ ['\n']))) =
      jsTrim e.originalHtml := by
    rw [jsTrimList_wrap]
    rfl
  have hmem2 : (e.index,
      String.mk (jsTrimList ('\n' :: (e.originalHtml.data ++ ['\n'])))) ∈
      ((prepareTranslationPayload blocks).2.map
        fun e => (e.index, '\n' :: (e.originalHtml.data ++ ['\n']))).map
        fun p => (p.1, String.mk (jsTrimList p.2)) := hmem
  rw [htrim] at hmem2
  exact lookup_pairwise_mem _ e.index (jsTrim e.originalHtml) hpw2 hmem2

theorem parse_buildResponse :
    ∀ parts : List (String × Nat × String), ∀ trail : String,
      (∀ p ∈ parts, (∀ c ∈ p.1.data, c ≠ '<') ∧
        hasSub chunkCloseLit p.2.2.data = false) →
      (∀ c ∈ trail.data, c ≠ '<') →
      List.Pairwise (fun a b => a ≠ b) (parts.map fun p => p.2.1) →
      ∀ p ∈ parts,
        List.lookup p.2.1 (parseTranslatedPayload (buildResponse parts trail)) =
          some (jsTrim p.2.2) := by
  intro parts trail hud htrail hpw p hp
  have hparts : ∀ q ∈ parts.map (fun r => (r.1.data, r.2.1, r.2.2.data)),
      (∀ c ∈ q.1, c ≠ '<') ∧ hasSub chunkCloseLit q.2.2 = false := by
    intro q hq
    rw [List.mem_map] at hq
    obtain ⟨r, hr, hqr⟩ := hq
    subst hqr
    exact hud r hr
  have hscan : scanChunksF (buildResponse parts trail).data.length
      (buildResponse parts trail).data =
      (parts.map fun r => (r.1.data, r.2.1, r.2.2.data)).map
        fun q => (q.2.1, '\n' :: (q.2.2 ++ ['\n'])) := by
    rw [buildResponse_data]
    exact scanChunksF_respBuild _ trail.data _ hparts htrail le_rfl
  have hscan2 : scanChunksF (buildResponse parts trail).data.length
      (buildResponse parts trail).data =
      parts.map fun r => (r.2.1, '\n' :: (r.2.2.data ++ ['\n'])) := by
    rw [hscan, List.map_map]
    rfl
  have hpw1 : List.Pairwise (fun a b => a.1 ≠ b.1)
      (parts.map fun r => (r.2.1, '\n' :: (r.2.2.data ++ ['\n']))) := by
    rw [List.pairwise_map]
    rw [List.pairwise_map] at hpw
    exact hpw
  have hparse : parseTranslatedPayload (buildResponse parts trail) =
      (parts.map fun r => (r.2.1, '\n' :: (r.2.2.data ++ ['\n']))).map
        fun q => (q.1, String.mk (jsTrimList q.2)) := by
    unfold parseTranslatedPayload
    rw [hscan2]
    rw [foldl_jsMapSet_pairs _ []
      (fun q _ r hr => absurd hr (List.not_mem_nil r)) hpw1]
    simp
  have hpw2 : List.Pairwise (fun a b => a.1 ≠ b.1)
      ((parts.map fun r => (r.2.1, '\n' :: (r.2.2.data ++ ['\n']))).map
        fun q => (q.1, String.mk (jsTrimList q.2))) := by
    rw [List.pairwise_map]
    exact hpw1
  rw [hparse]
  have hmem := List.mem_map_of_mem
    (fun q : Nat × List Char => (q.1, String.mk (jsTrimList q.2)))
    (List.mem_map_of_mem
      (fun r : String × Nat × String =>
        (r.2.1, '\n' :: (r.2.2.data ++ ['\n'])))
      hp)
  have htrim : String.mk (jsTrimList ('\n' :: (p.2.2.data ++ ['\n']))) =
      jsTrim p.2.2 := by
    rw [jsTrimList_wrap]
    rfl
  have hmem2 : (p.2.1,
      String.mk (jsTrimList ('\n' :: (p.2.2.data ++ ['\n'])))) ∈
      (parts.map fun r => (r.2.1, '\n' :: (r.2.2.data ++ ['\n']))).map
        fun q => (q.1, String.mk (jsTrimList q.2)) := hmem
  rw [htrim] at hmem2
  exact lookup_pairwise_mem _ p.2.1 (jsTrim p.2.2) hpw2 hmem2

/-- C5: counterexample. The block `<p></chunk>x</p>` has the non-empty,
already-trimmed fragment `</chunk>x` and is encoded under index 0, but
decoding the exact payload yields the entry `(0, "")` rather than the
fragment: the closing literal inside the fragment truncates the match, so
the unconditional round-trip stated by the spec fails. -/
theorem C5_counterexample :
    (prepareTranslationPayload [tagNode "p" [] [textNode "</chunk>x"]]).2.map
        (fun e => (e.index, e.originalHtml)) = [(0, "</chunk>x")] ∧
    jsTrim "</chunk>x" = "</chunk>x" ∧
    parseTranslatedPayload
        (prepareTranslationPayload [tagNode "p" [] [textNode "</chunk>x"]]).1 =
      [(0, "")] ∧
    ("" : String) ≠ "</chunk>x" :=
  ⟨rfl, rfl, rfl, by decide⟩

/-- C5 (amended): (1) for every block list whose recorded fragments do not
contain the closing literal `</chunk>`, decoding the exact encoded payload
recovers, for every mapping entry, the trimmed fragment keyed by its
original index; (2) decoding is order-independent and insensitive to stray
text free of `<` characters: for any part list (noise, id, fragment) with
`<`-free noise, fragments free of `</chunk>`, pairwise-distinct ids and a
`<`-free trailer, each id looks up to its trimmed fragment. -/
theorem C5_payload_roundtrip_amended :
    (∀ blocks : List Node,
      (∀ e ∈ (prepareTranslationPayload blocks).2,
        hasSub chunkCloseLit e.originalHtml.data = false) →
      ∀ e ∈ (prepareTranslationPayload blocks).2,
        List.lookup e.index
          (parseTranslatedPayload (prepareTranslationPayload blocks).1) =
          some (jsTrim e.originalHtml)) ∧
    (∀ parts : List (String × Nat × String), ∀ trail : String,
      (∀ p ∈ parts, (∀ c ∈ p.1.data, c ≠ '<') ∧
        hasSub chunkCloseLit p.2.2.data = false) →
      (∀ c ∈ trail.data, c ≠ '<') →
      List.Pairwise (fun a b => a ≠ b) (parts.map fun p => p.2.1) →
      ∀ p ∈ parts,
        List.lookup p.2.1
          (parseTranslatedPayload (buildResponse parts trail)) =
          some (jsTrim p.2.2)) :=
  ⟨parse_prepare_roundtrip, parse_buildResponse⟩

/-- C5: witness. Two clean blocks round-trip to their fragments, and a
response with out-of-band noise and an arbitrary id decodes to the trimmed
fragment. -/
theorem C5_witness :
    List.lookup 0 (parseTranslatedPayload
      (prepareTranslationPayload
        [tagNode "p" [] [textNode "Hello"],
         tagNode "p" [] [textNode "World"]]).1) = some "Hello" ∧
    List.lookup 7 (parseTranslatedPayload
      (buildResponse [("ok ", 7, " Bonjour ")] "done")) = some "Bonjour" := by
  constructor
  · exact C5_payload_roundtrip_amended.1
      [tagNode "p" [] [textNode "Hello"], tagNode "p" [] [textNode "World"]]
      (by decide)
      ⟨0, tagNode "p" [] [textNode "Hello"], "Hello"⟩
      (List.mem_cons_self _ _)
  · exact C5_payload_roundtrip_amended.2 [("ok ", 7, " Bonjour ")] "done"
      (by decide) (by decide) (by decide)
      ("ok ", 7, " Bonjour ") (List.mem_cons_self _ _)

end Coralite
